import Mathlib

/-!
Verification development for the `nice-table` table-layout engine
(`src/index.ts`).  The TypeScript source is shallowly embedded below:
JavaScript strings become `List Char`, JavaScript numbers become `Int`
(all arithmetic in the source is integer arithmetic except the
`shrinkFactor`/`growFactor` computations, which are embedded as exact
rationals `ℚ` with `Int.floor` standing for `Math.floor`), and in-place
array mutation becomes explicit state passing (`List.set`, folds).
Fallible control flow (`throw` vs `return`) is reflected in the
four-constructor `TableResult` sum.
-/

namespace NiceTable

/-- JavaScript strings are embedded as lists of characters.  Every
character appearing in this development is a single UTF-16 code unit in
JavaScript, so `List.length` agrees with JavaScript `String.length`. -/
abbrev Str := List Char

/-- `HorizontalAlignment` from the source. -/
inductive HorizontalAlignment
  | left
  | middle
  | right
deriving DecidableEq

/-- `VerticalAlignment` from the source. -/
inductive VerticalAlignment
  | top
  | middle
  | bottom
deriving DecidableEq

/-- `ColumnSizing` from the source. -/
inductive ColumnSizing
  | stretch
  | even
deriving DecidableEq

/-- `TableOptions` from the source.  `maxWidth` is an integer (the spec
declares it an integer; fractional JavaScript numbers are out of scope). -/
structure TableOptions where
  maxWidth : Int
  columnSizing : ColumnSizing
  horizontalAlignment : HorizontalAlignment
  verticalAlignment : VerticalAlignment
  fullWidth : Bool
  throwIfTooSmall : Bool
  indexColumn : Bool
deriving DecidableEq

/-- Observable outcome of `createTable`: the two `throw` sites
(feasibility failure, internal post-check failure), the plain-text
message return taken when `throwIfTooSmall` is false, and the normal
table return. -/
inductive TableResult
  | tooSmallError (msg : Str)
  | tooSmallMessage (msg : Str)
  | internalError
  | table (s : Str)
deriving DecidableEq

/-- Whether the result is a rendered table (a successful output). -/
def TableResult.isTable : TableResult → Bool
  | .table _ => true
  | _ => false

/-- The rendered table carried by a `.table` result (junk otherwise). -/
def TableResult.tableStr : TableResult → Str
  | .table s => s
  | _ => []

/-- Decimal rendering of a natural number, as JavaScript
`Number.prototype.toString` produces for a nonnegative integer index. -/
def natStr (n : Nat) : Str := (toString n).data

/-- Decimal rendering of an integer, as JavaScript string interpolation
produces for an integral number. -/
def intStr (i : Int) : Str := (toString i).data

/-! ### Width solver (`shrinkColumns`, `growColumns`) -/

/-- Indices of the "big" columns: `columnWidths[i] > minimumWidth`
(source line 241-243). -/
def bigColumnIndices (columnWidths : List Int) (minimumWidth : Int) : List Nat :=
  (List.range columnWidths.length).filter fun i => columnWidths.getD i 0 > minimumWidth

/-- Indices of the "small" columns: `columnWidths[i] < minimumWidth`
(source line 268-270). -/
def smallColumnIndices (columnWidths : List Int) (minimumWidth : Int) : List Nat :=
  (List.range columnWidths.length).filter fun i => columnWidths.getD i 0 < minimumWidth

/-- `shrinkColumns` (source lines 240-262).  The in-place loop over
`bigColumnIndices.slice(0, -1)` is a fold carrying the widths array and
the mutable `overflow` and `bigColumnsWidth` accumulators; the final
statement writes to the last big index.  When there is no big column the
source writes to `columnWidths[undefined]`, which leaves the array
elements unchanged, matching the `none` branch.  `shrinkFactor` is an
exact rational; `Math.floor` is `Int.floor`. -/
def shrinkColumns (columnWidths : List Int) (minimumWidth : Int) (overflow : Int) : List Int :=
  let bigIdx := bigColumnIndices columnWidths minimumWidth
  let bigColumnsWidth : Int :=
    bigIdx.foldl (fun totalWidth columnIndex => totalWidth + columnWidths.getD columnIndex 0) 0
  let shrinkFactor : ℚ :=
    1 - (overflow : ℚ) / ((bigColumnsWidth : ℚ) - (bigIdx.length : ℚ) * (minimumWidth : ℚ))
  let final := bigIdx.dropLast.foldl
    (fun (st : List Int × Int × Int) columnIndex =>
      let currentColumnWidth := st.1.getD columnIndex 0
      let fixedWidth := max minimumWidth ⌊shrinkFactor * (currentColumnWidth : ℚ)⌋
      let widthReduction := currentColumnWidth - fixedWidth
      (st.1.set columnIndex fixedWidth, st.2.1 - widthReduction, st.2.2 - widthReduction))
    (columnWidths, overflow, bigColumnsWidth)
  match bigIdx.getLast? with
  | some lastIndex => final.1.set lastIndex (final.1.getD lastIndex 0 - final.2.1)
  | none => final.1

/-- `growColumns` (source lines 267-288), same shape as `shrinkColumns`
with growth added instead of subtracted. -/
def growColumns (columnWidths : List Int) (minimumWidth : Int) (growth : Int) : List Int :=
  let smallIdx := smallColumnIndices columnWidths minimumWidth
  let smallColumnsWidth : Int :=
    smallIdx.foldl (fun totalWidth columnIndex => totalWidth + columnWidths.getD columnIndex 0) 0
  let growFactor : ℚ := 1 + (growth : ℚ) / (smallColumnsWidth : ℚ)
  let final := smallIdx.dropLast.foldl
    (fun (st : List Int × Int × Int) columnIndex =>
      let currentColumnWidth := st.1.getD columnIndex 0
      let fixedWidth := ⌊growFactor * (currentColumnWidth : ℚ)⌋
      let widthGrowth := fixedWidth - currentColumnWidth
      (st.1.set columnIndex fixedWidth, st.2.1 - widthGrowth, st.2.2 + widthGrowth))
    (columnWidths, growth, smallColumnsWidth)
  match smallIdx.getLast? with
  | some lastIndex => final.1.set lastIndex (final.1.getD lastIndex 0 + final.2.1)
  | none => final.1

/-! ### The orchestrator's width pipeline (source lines 52-95) -/

/-- `availableColumnWidth` (source line 52). -/
def availableWidth (columnCount : Nat) (maxWidth : Int) : Int :=
  maxWidth - (columnCount : Int) - 1

/-- `averageColumnWidth = Math.floor(availableColumnWidth / columnCount)`
(source line 53), embedded as floor division.  For `columnCount = 0` the
source produces `Infinity`; that value is only ever consumed by
`shrinkColumns`/`growColumns`, whose index lists are then empty, so the
arbitrary value `0` returned by `Int.fdiv _ 0` is observationally
equivalent. -/
def averageWidth (columnCount : Nat) (maxWidth : Int) : Int :=
  Int.fdiv (availableWidth columnCount maxWidth) (columnCount : Int)

/-- `Math.max(...columnWidths)` over a spread array (source line 69).
For the empty list JavaScript yields `-Infinity`; with no columns that
value is never used to build a width (the `for` loop body runs zero
times), so `0` is an observationally equivalent placeholder. -/
def jsMax : List Int → Int
  | [] => 0
  | x :: xs => xs.foldl max x

/-- Natural widths (source lines 54-56):
`Math.max(columnName.length + 2, ...tableContent.map(row => row[i].length + 2))`. -/
def naturalWidths (columnNames : List Str) (tableContent : List (List Str)) : List Int :=
  columnNames.enum.map fun p =>
    (tableContent.map fun row => ((row.getD p.1 []).length : Int) + 2).foldl max
      ((p.2.length : Int) + 2)

/-- The `switch (columnSizing)` block (source lines 58-82): returns the
column widths together with the value of the mutable `overflow` variable
after the block. -/
def sizedWidths (columnCount : Nat) (natW : List Int) (o : TableOptions) : List Int × Int :=
  let available := availableWidth columnCount o.maxWidth
  let avg := averageWidth columnCount o.maxWidth
  let overflow := natW.foldl (· + ·) 0 - available
  match o.columnSizing with
  | .stretch =>
    if overflow > 0 then (shrinkColumns natW avg overflow, 0) else (natW, overflow)
  | .even =>
    let maxColumnWidth := jsMax natW
    let evenW := natW.map fun _ => maxColumnWidth
    let overflow2 := maxColumnWidth * (columnCount : Int) - available
    if overflow2 > 0 then (shrinkColumns evenW avg overflow2, 0) else (evenW, overflow2)

/-- The width pipeline including the optional `fullWidth` growth
(source lines 84-87). -/
def solvedWidths (columnCount : Nat) (natW : List Int) (o : TableOptions) : List Int :=
  let s := sizedWidths columnCount natW o
  if o.fullWidth ∧ s.2 < 0 then
    growColumns s.1 (averageWidth columnCount o.maxWidth) (-s.2)
  else s.1

/-! ### Index column and feasibility check (source lines 30-50) -/

/-- Header label of the optional index column. -/
def indexHeader : Str := "(index)".data

/-- `columnCount` after the optional `columnCount++` (source lines 30, 37). -/
def columnCountFull (names : List Str) (indexColumn : Bool) : Nat :=
  if indexColumn then names.length + 1 else names.length

/-- Column names after the optional `columnNames.unshift('(index)')`
(source line 35). -/
def columnNamesFull (names : List Str) (indexColumn : Bool) : List Str :=
  if indexColumn then indexHeader :: names else names

/-- Table content after the optional per-row `row.unshift(i.toString())`
(source line 36). -/
def tableContentFull (content : List (List Str)) (indexColumn : Bool) : List (List Str) :=
  if indexColumn then content.enum.map (fun p => natStr p.1 :: p.2) else content

/-- The feasibility-failure message (source lines 42-44). -/
def tooSmallMessageFor (columnCount : Nat) (maxWidth : Int) : Str :=
  "The table does not fit. The width should be set to at least ".data
    ++ intStr (4 * (columnCount : Int) + 1)
    ++ " (4 * ColumnCount + 1) for this table to fit (received width ".data
    ++ intStr maxWidth
    ++ ").".data

/-- The final column widths produced by the solver for a call, after the
index column is prepended and the sizing and optional growth have run. -/
def finalWidths (names : List Str) (content : List (List Str)) (o : TableOptions) : List Int :=
  solvedWidths (columnCountFull names o.indexColumn)
    (naturalWidths (columnNamesFull names o.indexColumn) (tableContentFull content o.indexColumn))
    o

/-! ### Renderer (source lines 105-234) -/

/-- The box-drawing glyph constants (source lines 105-115). -/
def TOP_LEFT : Char := '\u250c'

/-- Top-right corner glyph. -/
def TOP_RIGHT : Char := '\u2510'

/-- Top junction glyph. -/
def TOP_MIDDLE : Char := '\u252c'

/-- Bottom-left corner glyph. -/
def BOTTOM_LEFT : Char := '\u2514'

/-- Bottom-right corner glyph. -/
def BOTTOM_RIGHT : Char := '\u2518'

/-- Bottom junction glyph. -/
def BOTTOM_MIDDLE : Char := '\u2534'

/-- Left junction glyph. -/
def LEFT_MIDDLE : Char := '\u251c'

/-- Right junction glyph. -/
def RIGHT_MIDDLE : Char := '\u2524'

/-- Cross junction glyph. -/
def MIDDLE : Char := '\u253c'

/-- Horizontal rule glyph. -/
def HORIZONTAL : Char := '\u2500'

/-- Vertical separator glyph. -/
def VERTICAL : Char := '\u2502'

/-- Newline used by the source's `.join('\n')` calls. -/
def NL : Char := '\n'

/-- JavaScript `Array.prototype.join` with a one-character separator. -/
def joinSep (sep : Char) : List Str → Str
  | [] => []
  | [x] => x
  | x :: y :: t => x ++ sep :: joinSep sep (y :: t)

/-- `HORIZONTAL.repeat(size)` (source line 119).  `size` is a final
column width, always nonnegative where this is reached (JavaScript
throws on a negative repeat count; the post-check keeps widths ≥ 3). -/
def hRepeat (size : Int) : Str := List.replicate size.toNat HORIZONTAL

/-- `createTableTop` (source lines 117-121). -/
def createTableTop (columnWidths : List Int) : Str :=
  TOP_LEFT :: joinSep TOP_MIDDLE (columnWidths.map hRepeat) ++ [TOP_RIGHT]

/-- `createTableMiddleLine` (source lines 123-127). -/
def createTableMiddleLine (columnWidths : List Int) : Str :=
  LEFT_MIDDLE :: joinSep MIDDLE (columnWidths.map hRepeat) ++ [RIGHT_MIDDLE]

/-- `createTableBottom` (source lines 129-135). -/
def createTableBottom (columnWidths : List Int) : Str :=
  BOTTOM_LEFT :: joinSep BOTTOM_MIDDLE (columnWidths.map hRepeat) ++ [BOTTOM_RIGHT]

/-- The whitespace class of JavaScript `String.prototype.trim` (space,
the ASCII control whitespace, NBSP, BOM and the line separators; the
remaining exotic Unicode `Zs` code points are not exercised by any table
content considered here). -/
def isJsWhitespace (c : Char) : Bool :=
  c = ' ' || c = '\t' || c = '\n' || c = '\r' || c = '\x0b' || c = '\x0c' ||
    c = '\u00a0' || c = '\ufeff' || c = '\u2028' || c = '\u2029'

/-- JavaScript `text.trim()`. -/
def jsTrim (s : Str) : Str :=
  ((s.dropWhile isJsWhitespace).reverse.dropWhile isJsWhitespace).reverse

/-- JavaScript `s.padEnd(width, ' ')`: appends spaces up to `width`,
returns `s` unchanged when already at least that long. -/
def padEnd (s : Str) (width : Nat) : Str :=
  s ++ List.replicate (width - s.length) ' '

/-- JavaScript `s.padStart(width, ' ')`. -/
def padStart (s : Str) (width : Nat) : Str :=
  List.replicate (width - s.length) ' ' ++ s

/-- `centerText` (source lines 137-141).  The `Math.floor` is a
nonnegative integer division wherever reached (the text fed in is at
most `width - 2` characters long). -/
def centerText (text : Str) (width : Nat) : Str :=
  let t := jsTrim text
  let padding := (width - t.length) / 2
  padEnd (List.replicate padding ' ' ++ t) width

/-- The body of the cell-alignment arrow function inside `createRow`
(source lines 151-158): the `if / else if / else` chain on the
horizontal alignment. -/
def alignCell (ha : HorizontalAlignment) (cell : Str) (columnWidth : Int) : Str :=
  match ha with
  | .left => padEnd (' ' :: cell) columnWidth.toNat
  | .right => padStart (cell ++ [' ']) columnWidth.toNat
  | .middle => centerText cell columnWidth.toNat

/-- `createRow` (source lines 143-163).  Cells are addressed as
`cells[i]` with `i` ranging over the column indices; every call site
passes a cell list at least as long as `columnWidths` (or pads with
`''`), so the `getD _ []` default is never observable. -/
def createRow (cells : List Str) (columnWidths : List Int) (ha : HorizontalAlignment) : Str :=
  VERTICAL :: joinSep VERTICAL
    (columnWidths.enum.map fun p => alignCell ha (cells.getD p.1 []) p.2) ++ [VERTICAL]

/-- Fuel-indexed form of the cell-wrapping loop; the fuel only has to
dominate the cell length (each iteration consumes at least one
character when `innerWidth ≥ 1`). -/
def wrapCellGo (fuel innerWidth : Nat) (cell : Str) : List Str :=
  match fuel with
  | 0 => []
  | fuel2 + 1 =>
    if cell = [] then []
    else if innerWidth = 0 then []
    else cell.take innerWidth :: wrapCellGo fuel2 innerWidth (cell.drop innerWidth)

/-- The cell-wrapping `while` loop of `createMultiLineRows` (source
lines 180-183): repeatedly slice off the first `innerWidth` characters,
where `innerWidth = columnWidth - 2`.  An empty cell produces the empty
list (the loop guard fails immediately).  The `innerWidth = 0` guard is
unreachable from `createTable` (rendering only happens with widths ≥ 3,
and in JavaScript a nonpositive `columnWidth - 2` would loop forever or
slice from the end). -/
def wrapCell (innerWidth : Nat) (cell : Str) : List Str :=
  wrapCellGo cell.length innerWidth cell

/-- The per-column wrapped cell lines of a row (source lines 174-187,
first loop). -/
def rowCells (row : List Str) (columnWidths : List Int) : List (List Str) :=
  columnWidths.enum.map fun p => wrapCell (p.2 - 2).toNat (row.getD p.1 [])

/-- `rowHeight` (source lines 172, 186): running maximum of the wrapped
line counts, starting from 0. -/
def rowHeightOf (cells : List (List Str)) : Nat :=
  cells.foldl (fun h c => max h c.length) 0

/-- Number of empty lines prepended for vertical alignment (source
lines 192-197).  `rowHeight - len` is nonnegative wherever reached
(`len` is one of the maximands of `rowHeight`). -/
def vpadCount (va : VerticalAlignment) (rowHeight len : Nat) : Nat :=
  match va with
  | .top => 0
  | .middle => (rowHeight - len) / 2
  | .bottom => rowHeight - len

/-- The vertical-alignment pass (source lines 190-201): outside the
`top` case, each cell gets `vpadCount` empty lines prepended
(`unshift(...Array(padding).fill(''))`). -/
def alignCells (va : VerticalAlignment) (rowHeight : Nat)
    (cells : List (List Str)) : List (List Str) :=
  if va = .top then cells
  else cells.map fun c => List.replicate (vpadCount va rowHeight c.length) ([] : Str) ++ c

/-- `cellRows` (source lines 203-207): physical line `i` of the row
takes entry `i` of every (padded) cell, `cell[i] ?? ''`. -/
def cellRowsOf (rowHeight : Nat) (cells : List (List Str)) : List (List Str) :=
  (List.range rowHeight).map fun i => cells.map fun cell => cell.getD i []

/-- The physical lines of one logical row, before the `.join('\n')`
(source line 209). -/
def rowLines (row : List Str) (columnWidths : List Int)
    (ha : HorizontalAlignment) (va : VerticalAlignment) : List Str :=
  let cells := rowCells row columnWidths
  let rowHeight := rowHeightOf cells
  let aligned := alignCells va rowHeight cells
  (cellRowsOf rowHeight aligned).map fun r => createRow r columnWidths ha

/-- `createMultiLineRows` (source lines 165-210). -/
def createMultiLineRows (row : List Str) (columnWidths : List Int)
    (ha : HorizontalAlignment) (va : VerticalAlignment) : Str :=
  joinSep NL (rowLines row columnWidths ha va)

/-- `createTableRows` (source lines 212-221). -/
def createTableRows (tableContent : List (List Str)) (columnWidths : List Int)
    (ha : HorizontalAlignment) (va : VerticalAlignment) : Str :=
  joinSep NL (tableContent.map fun row => createMultiLineRows row columnWidths ha va)

/-- `createTableColumnNames` (source lines 223-234). -/
def createTableColumnNames (columnNames : List Str) (columnWidths : List Int)
    (ha : HorizontalAlignment) (va : VerticalAlignment) : Str :=
  createMultiLineRows columnNames columnWidths ha va ++ NL :: createTableMiddleLine columnWidths

/-- The final `[top, names, rows, bottom].join('\n')` (source lines
97-102). -/
def renderTable (columnNames : List Str) (tableContent : List (List Str))
    (columnWidths : List Int) (ha : HorizontalAlignment) (va : VerticalAlignment) : Str :=
  joinSep NL
    [createTableTop columnWidths,
     createTableColumnNames columnNames columnWidths ha va,
     createTableRows tableContent columnWidths ha va,
     createTableBottom columnWidths]

/-- `createTable` (source lines 17-103), with value stringification
abstracted away: `names` is `keys.map(key => key.toString())` and
`content` is `items.map(item => keys.map(key => inspect(item[key])))`,
i.e. the already-stringified header and cell matrix that the layout
engine receives. -/
def createTable (names : List Str) (content : List (List Str)) (o : TableOptions) : TableResult :=
  let columnCount := columnCountFull names o.indexColumn
  let columnNames := columnNamesFull names o.indexColumn
  let tableContent := tableContentFull content o.indexColumn
  let minimumWidth : Int := 4 * (columnCount : Int) + 1
  if o.maxWidth < minimumWidth then
    if o.throwIfTooSmall then .tooSmallError (tooSmallMessageFor columnCount o.maxWidth)
    else .tooSmallMessage (tooSmallMessageFor columnCount o.maxWidth)
  else
    let columnWidths := solvedWidths columnCount (naturalWidths columnNames tableContent) o
    if columnWidths.any fun w => w < 3 then .internalError
    else .table (renderTable columnNames tableContent columnWidths
      o.horizontalAlignment o.verticalAlignment)

/-- Splitting a string on the newline character, as JavaScript
`s.split('\n')`: the empty string yields one empty line. -/
def splitNl : Str → List Str
  | [] => [[]]
  | c :: cs =>
    if c = NL then [] :: splitNl cs
    else
      match splitNl cs with
      | [] => [[c]]
      | l :: ls => (c :: l) :: ls

/-! ### Derived solver quantities used in theorem statements -/

/-- The new width a non-last big column receives in the shrink loop. -/
def shrinkF (minimumWidth : Int) (f : ℚ) (w : Int) : Int :=
  max minimumWidth ⌊f * (w : ℚ)⌋

/-- Total width of the big columns. -/
def bigSum (columnWidths : List Int) (minimumWidth : Int) : Int :=
  ((bigColumnIndices columnWidths minimumWidth).map fun i => columnWidths.getD i 0).sum

/-- Total width of the small columns. -/
def smallSum (columnWidths : List Int) (minimumWidth : Int) : Int :=
  ((smallColumnIndices columnWidths minimumWidth).map fun i => columnWidths.getD i 0).sum

/-- The `shrinkFactor` of `shrinkColumns` as a rational. -/
def shrinkFactorOf (columnWidths : List Int) (minimumWidth overflow : Int) : ℚ :=
  1 - (overflow : ℚ) /
    ((bigSum columnWidths minimumWidth : ℚ) -
      ((bigColumnIndices columnWidths minimumWidth).length : ℚ) * (minimumWidth : ℚ))

/-- The `growFactor` of `growColumns` as a rational. -/
def growFactorOf (columnWidths : List Int) (minimumWidth growth : Int) : ℚ :=
  1 + (growth : ℚ) / (smallSum columnWidths minimumWidth : ℚ)

/-! ### Heap model for the argument-mutation claim

The prelude of `createTable` (source lines 30-38) is the only part of
the function that touches the caller's data, and the only part that
mutates arrays the caller could alias (`unshift` on `columnNames` and on
each row of `tableContent`).  To state that the caller's arrays survive
unchanged, those lines are embedded against an explicit heap of
JavaScript arrays and records; everything after line 38 operates on the
extracted pure lists (see `createTable` above) and performs no further
access to the caller's objects. -/

/-- A JavaScript value as far as the prelude is concerned: a string or a
reference to a heap object. -/
inductive JsVal where
  | str : Str → JsVal
  | ref : Nat → JsVal
deriving DecidableEq

/-- A heap object: an array of values or a record (the items). -/
inductive HeapObj where
  | arr : List JsVal → HeapObj
  | record : List (Str × JsVal) → HeapObj
deriving DecidableEq

/-- A heap: an allocation counter and a partial map from references. -/
structure Heap where
  next : Nat
  mem : Nat → Option HeapObj

/-- Allocate a fresh object, returning the new heap and the new ref. -/
def allocObj (h : Heap) (o : HeapObj) : Heap × Nat :=
  ({ next := h.next + 1, mem := fun r => if r = h.next then some o else h.mem r }, h.next)

/-- JavaScript `array.unshift(v)` on the array at `r` (no-op on refs
that do not hold an array). -/
def unshiftArr (h : Heap) (r : Nat) (v : JsVal) : Heap :=
  { h with
    mem := fun r2 =>
      if r2 = r then
        match h.mem r with
        | some (.arr vs) => some (.arr (v :: vs))
        | o => o
      else h.mem r2 }

/-- Reading `item[key]` from a record (`none` models `undefined`). -/
def recordGet (fields : List (Str × JsVal)) (k : Str) : Option JsVal :=
  (fields.find? fun p => p.1 == k).map (·.2)

/-- One step of the `items.map(item => keys.map(key => inspect(item[key])))`
loop (source line 31) over the heap: read the item record, build the
fresh row array of stringified fields, allocate it, and record its
ref. -/
def preludeStep (inspectF : Option JsVal → Str) (keyStrs : List Str)
    (st : Heap × List Nat) (v : JsVal) : Option (Heap × List Nat) :=
  match v with
  | .ref r =>
    match st.1.mem r with
    | some (.record fields) =>
      let row := keyStrs.map fun k => JsVal.str (inspectF (recordGet fields k))
      let alloc2 := allocObj st.1 (.arr row)
      some (alloc2.1, st.2 ++ [alloc2.2])
    | _ => none
  | .str _ => none

/-- The prelude of `createTable` (source lines 30-38) over the heap:
`keys.map(key => key.toString())` allocates the fresh `columnNames`
array, `items.map(item => keys.map(key => inspect(item[key])))`
allocates one fresh row array per item plus the fresh outer array, and
under `indexColumn` the `unshift` calls mutate exactly those fresh
arrays.  `inspectF` abstracts `util.inspect` (applied to the looked-up
field, `none` standing for `undefined`).  Returns the heap after the
prelude together with the refs of `columnNames` and `tableContent`;
`none` models a call whose inputs are not arrays of the expected shape
(a TypeScript type error). -/
def tablePrelude (inspectF : Option JsVal → Str) (h0 : Heap)
    (itemsRef keysRef : Nat) (indexColumn : Bool) :
    Option (Heap × Nat × Nat) :=
  match h0.mem keysRef, h0.mem itemsRef with
  | some (.arr keyVals), some (.arr itemVals) =>
    Option.bind
      (keyVals.mapM fun v =>
        match v with
        | .str s => some s
        | .ref _ => none)
      fun keyStrs =>
        let names := allocObj h0 (.arr (keyStrs.map JsVal.str))
        Option.bind (itemVals.foldlM (preludeStep inspectF keyStrs) (names.1, ([] : List Nat)))
          fun rowsState =>
            let contentAlloc := allocObj rowsState.1 (.arr (rowsState.2.map JsVal.ref))
            if indexColumn then
              let h5 := unshiftArr contentAlloc.1 names.2 (.str indexHeader)
              let h6 := rowsState.2.enum.foldl
                (fun hh p => unshiftArr hh p.2 (.str (natStr p.1))) h5
              some (h6, names.2, contentAlloc.2)
            else
              some (contentAlloc.1, names.2, contentAlloc.2)
  | _, _ => none


/-- The source's default option values (source lines 20-28). -/
def optsBase : TableOptions :=
  { maxWidth := 80, columnSizing := .stretch, horizontalAlignment := .middle,
    verticalAlignment := .middle, fullWidth := false, throwIfTooSmall := true,
    indexColumn := false }


/-- Concrete two-column input refuting the fullWidth equality of C2. -/
def namesC2 : List Str := ["ab".data, "cd".data]

/-- Options for the C2 counterexample. -/
def optsC2 : TableOptions := { optsBase with maxWidth := 12, fullWidth := true }

/-- Concrete input for the C2 witness. -/
def namesC2w : List Str := ["a".data, "b".data]

/-- Options for the C2 witness. -/
def optsC2w : TableOptions := { optsBase with maxWidth := 9, fullWidth := true }


/-- Column names for the C4 witness table. -/
def namesC4w : List Str := ["ab".data, "c".data]

/-- Data rows for the C4 witness table. -/
def contentC4w : List (List Str) := [["x".data, "yz".data]]


/-- Options for the C6 counterexample: even sizing plus fullWidth. -/
def optsC6 : TableOptions :=
  { optsBase with maxWidth := 12, fullWidth := true, columnSizing := .even }

/-- Options for the C6 witness: even sizing, no fullWidth. -/
def optsC6w : TableOptions := { optsBase with maxWidth := 12, columnSizing := .even }


/-- Options putting the boundary width for one column (C8). -/
def optsC8 : TableOptions := { optsBase with maxWidth := 5 }

/-- Options putting the boundary width for two columns (C8 witness). -/
def optsC8w : TableOptions := { optsBase with maxWidth := 9 }


/-- A concrete row for the vertical-alignment witness (C9). -/
def rowC9 : List Str := ["abcdef".data, "x".data]

/-- Concrete column widths for the vertical-alignment witness (C9). -/
def widthsC9 : List Int := [5, 5]


/-- A concrete `util.inspect` stand-in for the mutation witness (C10):
strings print as themselves, anything else as the text `undefined`. -/
def F0 : Option JsVal → Str
  | some (.str s) => s
  | _ => "undefined".data

/-- A concrete caller heap for the mutation witness (C10): ref 0 holds
the keys array `['ab']`, ref 1 the items array `[{ab: 'x'}]`, ref 2 the
single item record. -/
def h0w : Heap :=
  { next := 3,
    mem := fun r =>
      if r = 0 then some (.arr [.str "ab".data])
      else if r = 1 then some (.arr [.ref 2])
      else if r = 2 then some (.record [("ab".data, .str "x".data)])
      else none }

/-! ## Theorems

List-level helper lemmas used throughout. -/

theorem getD_set_self (l : List Int) (i : Nat) (x : Int) (h : i < l.length) :
    (l.set i x).getD i 0 = x := by
  simp [List.getD_eq_getElem?_getD, List.getElem?_set, h]

theorem getD_set_ne (l : List Int) (i j : Nat) (x : Int) (h : i ≠ j) :
    (l.set i x).getD j 0 = l.getD j 0 := by
  simp [List.getD_eq_getElem?_getD, List.getElem?_set, h]

theorem sum_set_int (l : List Int) (i : Nat) (x : Int) (h : i < l.length) :
    (l.set i x).sum = l.sum - l.getD i 0 + x := by
  induction l generalizing i with
  | nil => simp at h
  | cons a t ih =>
    cases i with
    | zero => simp [List.set]; ring
    | succ n =>
      have hn : n < t.length := by simpa using h
      simp only [List.set, List.sum_cons, List.getD_cons_succ, ih n hn]
      ring

theorem foldl_add_eq (l : List Int) (a : Int) : l.foldl (· + ·) a = a + l.sum := by
  induction l generalizing a with
  | nil => simp
  | cons x t ih => simp [List.foldl_cons, ih, List.sum_cons]; ring

theorem foldl_add_map (f : Nat → Int) (l : List Nat) (a : Int) :
    l.foldl (fun t i => t + f i) a = a + (l.map f).sum := by
  induction l generalizing a with
  | nil => simp
  | cons x t ih => simp [List.foldl_cons, ih, List.sum_cons]; ring

theorem foldl_max_le_acc {α : Type} [LinearOrder α] (l : List α) (a : α) :
    a ≤ l.foldl max a := by
  induction l generalizing a with
  | nil => simp
  | cons x t ih => exact le_trans (le_max_left a x) (ih (max a x))

theorem mem_le_foldl_max {α : Type} [LinearOrder α] {x : α} {l : List α} (hx : x ∈ l) (a : α) :
    x ≤ l.foldl max a := by
  induction l generalizing a with
  | nil => simp at hx
  | cons y t ih =>
    rw [List.foldl_cons]
    rcases List.mem_cons.1 hx with h | h
    · subst h
      exact le_trans (le_max_right a x) (foldl_max_le_acc t (max a x))
    · exact ih h (max a y)

theorem foldl_max_le {α : Type} [LinearOrder α] {l : List α} {a b : α}
    (ha : a ≤ b) (h : ∀ x ∈ l, x ≤ b) : l.foldl max a ≤ b := by
  induction l generalizing a with
  | nil => simpa
  | cons x t ih =>
    refine ih (max_le ha (h x (List.mem_cons_self x t))) fun y hy => h y (List.mem_cons_of_mem x hy)

theorem sum_map_range_getD (l : List Int) :
    ((List.range l.length).map fun i => l.getD i 0).sum = l.sum := by
  induction l with
  | nil => simp
  | cons a t ih =>
    have : List.range (a :: t).length = 0 :: (List.range t.length).map (· + 1) := by
      simpa [List.length_cons] using List.range_succ_eq_map t.length
    rw [this]
    simp only [List.map_cons, List.map_map, List.sum_cons, List.getD_cons_zero]
    have hmap : ((List.range t.length).map ((fun i => (a :: t).getD i 0) ∘ (· + 1))) =
        (List.range t.length).map fun i => t.getD i 0 := by
      refine List.map_congr_left fun i _ => ?_
      simp [Function.comp, List.getD_cons_succ]
    rw [hmap, ih]

theorem sum_filter_add_sum_filter_not (l : List Nat) (p : Nat → Bool) (f : Nat → Int) :
    ((l.filter p).map f).sum + ((l.filter fun i => !(p i)).map f).sum = (l.map f).sum := by
  induction l with
  | nil => simp
  | cons x t ih =>
    by_cases hx : p x
    · simp only [List.filter_cons, hx, if_pos, List.map_cons, List.sum_cons]
      simp only [Bool.not_true, if_neg, Bool.false_eq_true, not_false_iff]
      omega
    · simp only [List.filter_cons, hx, Bool.false_eq_true, if_neg, not_false_iff, List.map_cons,
        List.sum_cons, Bool.not_false, if_pos]
      omega

theorem sum_map_sub_const (l : List Nat) (f : Nat → Int) (c : Int) :
    (l.map fun i => f i - c).sum = (l.map f).sum - (l.length : Int) * c := by
  induction l with
  | nil => simp
  | cons x t ih =>
    simp only [List.map_cons, List.sum_cons, ih, List.length_cons]
    push_cast
    ring

/-- Characterization of the in-place loops of `shrinkColumns` and
`growColumns`: folding a step of the given shape over a duplicate-free
list of in-bounds indices rewrites exactly those entries through `F`,
decrements the first accumulator by the corresponding `D`-deltas, and
changes the sum accordingly. -/
theorem foldl_step_char (F D : Int → Int) (G : Int → Int → Int)
    (step : List Int × Int × Int → Nat → List Int × Int × Int)
    (hstep : ∀ st i, step st i =
      (st.1.set i (F (st.1.getD i 0)), st.2.1 - D (st.1.getD i 0), G st.2.2 (st.1.getD i 0)))
    (L : List Nat) :
    ∀ (ws : List Int) (ov bw : Int), L.Nodup → (∀ i ∈ L, i < ws.length) →
      (L.foldl step (ws, ov, bw)).1.length = ws.length ∧
      (∀ j, j ∉ L → (L.foldl step (ws, ov, bw)).1.getD j 0 = ws.getD j 0) ∧
      (∀ j, j ∈ L → (L.foldl step (ws, ov, bw)).1.getD j 0 = F (ws.getD j 0)) ∧
      (L.foldl step (ws, ov, bw)).2.1 = ov - (L.map fun i => D (ws.getD i 0)).sum ∧
      (L.foldl step (ws, ov, bw)).1.sum = ws.sum + (L.map fun i => F (ws.getD i 0) - ws.getD i 0).sum := by
  induction L with
  | nil => intro ws ov bw _ _; simp
  | cons i t ih =>
    intro ws ov bw hnd hb
    have hit : i ∉ t := (List.nodup_cons.1 hnd).1
    have hndt : t.Nodup := (List.nodup_cons.1 hnd).2
    have hilen : i < ws.length := hb i (List.mem_cons_self i t)
    have hbt : ∀ j ∈ t, j < (ws.set i (F (ws.getD i 0))).length := by
      intro j hj
      rw [List.length_set]
      exact hb j (List.mem_cons_of_mem i hj)
    have hfold : (i :: t).foldl step (ws, ov, bw) =
        t.foldl step (ws.set i (F (ws.getD i 0)), ov - D (ws.getD i 0), G bw (ws.getD i 0)) := by
      rw [List.foldl_cons, hstep]
    obtain ⟨ihlen, ihout, ihin, ihov, ihsum⟩ :=
      ih (ws.set i (F (ws.getD i 0))) (ov - D (ws.getD i 0)) (G bw (ws.getD i 0)) hndt hbt
    have hset_self : (ws.set i (F (ws.getD i 0))).getD i 0 = F (ws.getD i 0) :=
      getD_set_self ws i _ hilen
    have hset_ne : ∀ j, j ≠ i → (ws.set i (F (ws.getD i 0))).getD j 0 = ws.getD j 0 := by
      intro j hj
      exact getD_set_ne ws i j _ (fun he => hj he.symm)
    have hmapD : (t.map fun i2 => D ((ws.set i (F (ws.getD i 0))).getD i2 0)).sum =
        (t.map fun i2 => D (ws.getD i2 0)).sum := by
      congr 1
      refine List.map_congr_left fun j hj => ?_
      rw [hset_ne j (fun he => hit (he ▸ hj))]
    have hmapF : (t.map fun i2 => F ((ws.set i (F (ws.getD i 0))).getD i2 0) -
          (ws.set i (F (ws.getD i 0))).getD i2 0).sum =
        (t.map fun i2 => F (ws.getD i2 0) - ws.getD i2 0).sum := by
      congr 1
      refine List.map_congr_left fun j hj => ?_
      rw [hset_ne j (fun he => hit (he ▸ hj))]
    refine ⟨?_, ?_, ?_, ?_, ?_⟩
    · rw [hfold, ihlen, List.length_set]
    · intro j hj
      have hj1 : j ≠ i := fun he => hj (he ▸ List.mem_cons_self i t)
      have hj2 : j ∉ t := fun he => hj (List.mem_cons_of_mem i he)
      rw [hfold, ihout j hj2, hset_ne j hj1]
    · intro j hj
      rcases List.mem_cons.1 hj with he | hm
      · subst he
        rw [hfold, ihout j hit, hset_self]
      · rw [hfold, ihin j hm, hset_ne j (fun he => hit (he ▸ hm))]
    · rw [hfold, ihov, hmapD, List.map_cons, List.sum_cons]
      ring
    · rw [hfold, ihsum, hmapF, sum_set_int ws i _ hilen, List.map_cons, List.sum_cons]
      ring

theorem sum_map_neg_pair (L : List Nat) (g : Nat → Int) :
    (L.map fun i => -(g i)).sum = -((L.map g).sum) := by
  induction L with
  | nil => simp
  | cons x t ih => simp [List.map_cons, List.sum_cons, ih]; ring

theorem bigColumnIndices_nodup (ws : List Int) (a : Int) : (bigColumnIndices ws a).Nodup :=
  List.Nodup.filter _ (List.nodup_range _)

theorem smallColumnIndices_nodup (ws : List Int) (a : Int) : (smallColumnIndices ws a).Nodup :=
  List.Nodup.filter _ (List.nodup_range _)

theorem mem_bigColumnIndices (ws : List Int) (a : Int) (j : Nat) :
    j ∈ bigColumnIndices ws a ↔ j < ws.length ∧ a < ws.getD j 0 := by
  simp [bigColumnIndices, List.mem_filter, List.mem_range]

theorem mem_smallColumnIndices (ws : List Int) (a : Int) (j : Nat) :
    j ∈ smallColumnIndices ws a ↔ j < ws.length ∧ ws.getD j 0 < a := by
  simp [smallColumnIndices, List.mem_filter, List.mem_range]

theorem bigColumnIndices_bound (ws : List Int) (a : Int) :
    ∀ i ∈ bigColumnIndices ws a, i < ws.length :=
  fun i hi => ((mem_bigColumnIndices ws a i).1 hi).1

theorem smallColumnIndices_bound (ws : List Int) (a : Int) :
    ∀ i ∈ smallColumnIndices ws a, i < ws.length :=
  fun i hi => ((mem_smallColumnIndices ws a i).1 hi).1

theorem getLast_not_mem_dropLast {L : List Nat} (hnd : L.Nodup) (h : L ≠ []) :
    L.getLast h ∉ L.dropLast := by
  intro hmem
  have hsplit := List.dropLast_append_getLast h
  rw [← hsplit] at hnd
  rcases List.nodup_append.1 hnd with ⟨_, _, hdisj⟩
  exact hdisj hmem (by simp)

/-- Full characterization of `shrinkColumns` when at least one big
column exists: non-big columns are untouched, every big column except
the last is clamped to `max(minimumWidth, floor(shrinkFactor * width))`,
the last big column absorbs the remaining overflow by plain subtraction,
and the total shrinks by exactly `overflow`. -/
theorem shrinkColumns_char (ws : List Int) (a d : Int)
    (hbig : bigColumnIndices ws a ≠ []) :
    (shrinkColumns ws a d).length = ws.length ∧
    (∀ j, j ∉ bigColumnIndices ws a → (shrinkColumns ws a d).getD j 0 = ws.getD j 0) ∧
    (∀ j ∈ (bigColumnIndices ws a).dropLast,
      (shrinkColumns ws a d).getD j 0 = shrinkF a (shrinkFactorOf ws a d) (ws.getD j 0)) ∧
    ((shrinkColumns ws a d).getD ((bigColumnIndices ws a).getLast hbig) 0 =
      ws.getD ((bigColumnIndices ws a).getLast hbig) 0 -
        (d - ((bigColumnIndices ws a).dropLast.map fun i =>
          ws.getD i 0 - shrinkF a (shrinkFactorOf ws a d) (ws.getD i 0)).sum)) ∧
    (shrinkColumns ws a d).sum = ws.sum - d := by
  have hnd := bigColumnIndices_nodup ws a
  have hndDL : (bigColumnIndices ws a).dropLast.Nodup :=
    List.Nodup.sublist (List.dropLast_sublist _) hnd
  have hbDL : ∀ i ∈ (bigColumnIndices ws a).dropLast, i < ws.length :=
    fun i hi => bigColumnIndices_bound ws a i ((List.dropLast_sublist _).subset hi)
  have hW : (bigColumnIndices ws a).foldl (fun t i => t + ws.getD i 0) 0 = bigSum ws a := by
    rw [foldl_add_map]
    simp [bigSum]
  obtain ⟨clen, cout, cin, cov, csum⟩ :=
    foldl_step_char (shrinkF a (shrinkFactorOf ws a d))
      (fun w => w - shrinkF a (shrinkFactorOf ws a d) w)
      (fun bw w => bw - (w - shrinkF a (shrinkFactorOf ws a d) w))
      (fun st i =>
        (st.1.set i (shrinkF a (shrinkFactorOf ws a d) (st.1.getD i 0)),
         st.2.1 - (st.1.getD i 0 - shrinkF a (shrinkFactorOf ws a d) (st.1.getD i 0)),
         st.2.2 - (st.1.getD i 0 - shrinkF a (shrinkFactorOf ws a d) (st.1.getD i 0))))
      (fun _ _ => rfl)
      (bigColumnIndices ws a).dropLast ws d (bigSum ws a) hndDL hbDL
  have hlast_mem : (bigColumnIndices ws a).getLast hbig ∈ bigColumnIndices ws a :=
    List.getLast_mem hbig
  have hlast_lt : (bigColumnIndices ws a).getLast hbig < ws.length :=
    bigColumnIndices_bound ws a _ hlast_mem
  have hlast_not : (bigColumnIndices ws a).getLast hbig ∉ (bigColumnIndices ws a).dropLast :=
    getLast_not_mem_dropLast hnd hbig
  have heq : shrinkColumns ws a d =
      ((bigColumnIndices ws a).dropLast.foldl
        (fun st i =>
          (st.1.set i (shrinkF a (shrinkFactorOf ws a d) (st.1.getD i 0)),
           st.2.1 - (st.1.getD i 0 - shrinkF a (shrinkFactorOf ws a d) (st.1.getD i 0)),
           st.2.2 - (st.1.getD i 0 - shrinkF a (shrinkFactorOf ws a d) (st.1.getD i 0))))
        (ws, d, bigSum ws a)).1.set ((bigColumnIndices ws a).getLast hbig)
        (((bigColumnIndices ws a).dropLast.foldl
          (fun st i =>
            (st.1.set i (shrinkF a (shrinkFactorOf ws a d) (st.1.getD i 0)),
             st.2.1 - (st.1.getD i 0 - shrinkF a (shrinkFactorOf ws a d) (st.1.getD i 0)),
             st.2.2 - (st.1.getD i 0 - shrinkF a (shrinkFactorOf ws a d) (st.1.getD i 0))))
          (ws, d, bigSum ws a)).1.getD ((bigColumnIndices ws a).getLast hbig) 0 -
         ((bigColumnIndices ws a).dropLast.foldl
          (fun st i =>
            (st.1.set i (shrinkF a (shrinkFactorOf ws a d) (st.1.getD i 0)),
             st.2.1 - (st.1.getD i 0 - shrinkF a (shrinkFactorOf ws a d) (st.1.getD i 0)),
             st.2.2 - (st.1.getD i 0 - shrinkF a (shrinkFactorOf ws a d) (st.1.getD i 0))))
          (ws, d, bigSum ws a)).2.1) := by
    simp only [shrinkColumns, hW, List.getLast?_eq_getLast _ hbig]
    rfl
  set B := bigColumnIndices ws a with hB
  set fold := B.dropLast.foldl
    (fun st i =>
      (st.1.set i (shrinkF a (shrinkFactorOf ws a d) (st.1.getD i 0)),
       st.2.1 - (st.1.getD i 0 - shrinkF a (shrinkFactorOf ws a d) (st.1.getD i 0)),
       st.2.2 - (st.1.getD i 0 - shrinkF a (shrinkFactorOf ws a d) (st.1.getD i 0))))
    (ws, d, bigSum ws a) with hfoldeq
  have hlast_lt2 : B.getLast hbig < fold.1.length := by rw [clen]; exact hlast_lt
  refine ⟨?_, ?_, ?_, ?_, ?_⟩
  · rw [heq, List.length_set, clen]
  · intro j hj
    have hj1 : j ∉ B.dropLast := fun hm => hj ((List.dropLast_sublist _).subset hm)
    have hj2 : j ≠ B.getLast hbig := fun he => hj (he ▸ hlast_mem)
    rw [heq, getD_set_ne _ _ _ _ (fun he => hj2 he.symm), cout j hj1]
  · intro j hj
    have hj2 : j ≠ B.getLast hbig := fun he => hlast_not (he ▸ hj)
    rw [heq, getD_set_ne _ _ _ _ (fun he => hj2 he.symm), cin j hj]
  · rw [heq, getD_set_self _ _ _ hlast_lt2, cout _ hlast_not, cov]
  · rw [heq, sum_set_int _ _ _ hlast_lt2, csum, cov]
    have : (B.dropLast.map fun i =>
        shrinkF a (shrinkFactorOf ws a d) (ws.getD i 0) - ws.getD i 0).sum =
        -((B.dropLast.map fun i =>
          ws.getD i 0 - shrinkF a (shrinkFactorOf ws a d) (ws.getD i 0)).sum) := by
      rw [← sum_map_neg_pair]
      congr 1
      refine List.map_congr_left fun i _ => ?_
      ring
    rw [this]
    ring

/-- `shrinkColumns` with no big column leaves the widths unchanged
(the source writes to `columnWidths[undefined]`). -/
theorem shrinkColumns_empty (ws : List Int) (a d : Int)
    (h : bigColumnIndices ws a = []) : shrinkColumns ws a d = ws := by
  simp [shrinkColumns, h]

/-- `growColumns` with no small column leaves the widths unchanged. -/
theorem growColumns_empty (ws : List Int) (a g : Int)
    (h : smallColumnIndices ws a = []) : growColumns ws a g = ws := by
  simp [growColumns, h]

/-- Full characterization of `growColumns` when at least one small
column exists. -/
theorem growColumns_char (ws : List Int) (a g : Int)
    (hsmall : smallColumnIndices ws a ≠ []) :
    (growColumns ws a g).length = ws.length ∧
    (∀ j, j ∉ smallColumnIndices ws a → (growColumns ws a g).getD j 0 = ws.getD j 0) ∧
    (∀ j ∈ (smallColumnIndices ws a).dropLast,
      (growColumns ws a g).getD j 0 = ⌊growFactorOf ws a g * (ws.getD j 0 : ℚ)⌋) ∧
    ((growColumns ws a g).getD ((smallColumnIndices ws a).getLast hsmall) 0 =
      ws.getD ((smallColumnIndices ws a).getLast hsmall) 0 +
        (g - ((smallColumnIndices ws a).dropLast.map fun i =>
          ⌊growFactorOf ws a g * (ws.getD i 0 : ℚ)⌋ - ws.getD i 0).sum)) ∧
    (growColumns ws a g).sum = ws.sum + g := by
  have hnd := smallColumnIndices_nodup ws a
  have hndDL : (smallColumnIndices ws a).dropLast.Nodup :=
    List.Nodup.sublist (List.dropLast_sublist _) hnd
  have hbDL : ∀ i ∈ (smallColumnIndices ws a).dropLast, i < ws.length :=
    fun i hi => smallColumnIndices_bound ws a i ((List.dropLast_sublist _).subset hi)
  have hW : (smallColumnIndices ws a).foldl (fun t i => t + ws.getD i 0) 0 = smallSum ws a := by
    rw [foldl_add_map]
    simp [smallSum]
  obtain ⟨clen, cout, cin, cov, csum⟩ :=
    foldl_step_char (fun w => ⌊growFactorOf ws a g * (w : ℚ)⌋)
      (fun w => ⌊growFactorOf ws a g * (w : ℚ)⌋ - w)
      (fun bw w => bw + (⌊growFactorOf ws a g * (w : ℚ)⌋ - w))
      (fun st i =>
        (st.1.set i ⌊growFactorOf ws a g * (st.1.getD i 0 : ℚ)⌋,
         st.2.1 - (⌊growFactorOf ws a g * (st.1.getD i 0 : ℚ)⌋ - st.1.getD i 0),
         st.2.2 + (⌊growFactorOf ws a g * (st.1.getD i 0 : ℚ)⌋ - st.1.getD i 0)))
      (fun _ _ => rfl)
      (smallColumnIndices ws a).dropLast ws g (smallSum ws a) hndDL hbDL
  have hlast_mem : (smallColumnIndices ws a).getLast hsmall ∈ smallColumnIndices ws a :=
    List.getLast_mem hsmall
  have hlast_lt : (smallColumnIndices ws a).getLast hsmall < ws.length :=
    smallColumnIndices_bound ws a _ hlast_mem
  have hlast_not :
      (smallColumnIndices ws a).getLast hsmall ∉ (smallColumnIndices ws a).dropLast :=
    getLast_not_mem_dropLast hnd hsmall
  have heq : growColumns ws a g =
      ((smallColumnIndices ws a).dropLast.foldl
        (fun st i =>
          (st.1.set i ⌊growFactorOf ws a g * (st.1.getD i 0 : ℚ)⌋,
           st.2.1 - (⌊growFactorOf ws a g * (st.1.getD i 0 : ℚ)⌋ - st.1.getD i 0),
           st.2.2 + (⌊growFactorOf ws a g * (st.1.getD i 0 : ℚ)⌋ - st.1.getD i 0)))
        (ws, g, smallSum ws a)).1.set ((smallColumnIndices ws a).getLast hsmall)
        (((smallColumnIndices ws a).dropLast.foldl
          (fun st i =>
            (st.1.set i ⌊growFactorOf ws a g * (st.1.getD i 0 : ℚ)⌋,
             st.2.1 - (⌊growFactorOf ws a g * (st.1.getD i 0 : ℚ)⌋ - st.1.getD i 0),
             st.2.2 + (⌊growFactorOf ws a g * (st.1.getD i 0 : ℚ)⌋ - st.1.getD i 0)))
          (ws, g, smallSum ws a)).1.getD ((smallColumnIndices ws a).getLast hsmall) 0 +
         ((smallColumnIndices ws a).dropLast.foldl
          (fun st i =>
            (st.1.set i ⌊growFactorOf ws a g * (st.1.getD i 0 : ℚ)⌋,
             st.2.1 - (⌊growFactorOf ws a g * (st.1.getD i 0 : ℚ)⌋ - st.1.getD i 0),
             st.2.2 + (⌊growFactorOf ws a g * (st.1.getD i 0 : ℚ)⌋ - st.1.getD i 0)))
          (ws, g, smallSum ws a)).2.1) := by
    simp only [growColumns, hW, List.getLast?_eq_getLast _ hsmall]
    rfl
  set S := smallColumnIndices ws a with hS
  set fold := S.dropLast.foldl
    (fun st i =>
      (st.1.set i ⌊growFactorOf ws a g * (st.1.getD i 0 : ℚ)⌋,
       st.2.1 - (⌊growFactorOf ws a g * (st.1.getD i 0 : ℚ)⌋ - st.1.getD i 0),
       st.2.2 + (⌊growFactorOf ws a g * (st.1.getD i 0 : ℚ)⌋ - st.1.getD i 0)))
    (ws, g, smallSum ws a) with hfoldeq
  have hlast_lt2 : S.getLast hsmall < fold.1.length := by rw [clen]; exact hlast_lt
  refine ⟨?_, ?_, ?_, ?_, ?_⟩
  · rw [heq, List.length_set, clen]
  · intro j hj
    have hj1 : j ∉ S.dropLast := fun hm => hj ((List.dropLast_sublist _).subset hm)
    have hj2 : j ≠ S.getLast hsmall := fun he => hj (he ▸ hlast_mem)
    rw [heq, getD_set_ne _ _ _ _ (fun he => hj2 he.symm), cout j hj1]
  · intro j hj
    have hj2 : j ≠ S.getLast hsmall := fun he => hlast_not (he ▸ hj)
    rw [heq, getD_set_ne _ _ _ _ (fun he => hj2 he.symm), cin j hj]
  · rw [heq, getD_set_self _ _ _ hlast_lt2, cout _ hlast_not, cov]
  · rw [heq, sum_set_int _ _ _ hlast_lt2, csum, cov]
    ring

theorem card_le_sum (L : List Nat) (f : Nat → Int) (h : ∀ i ∈ L, 1 ≤ f i) :
    (L.length : Int) ≤ (L.map f).sum := by
  induction L with
  | nil => simp
  | cons x t ih =>
    simp only [List.map_cons, List.sum_cons, List.length_cons]
    have h1 := h x (List.mem_cons_self x t)
    have h2 := ih fun i hi => h i (List.mem_cons_of_mem x hi)
    push_cast
    omega

/-- Lower bound for the shrink step: whenever the overflow does not
exceed the total excess of the big columns over `minimumWidth` (which
the orchestrator always guarantees), every column ends at or above
`min(its old width, minimumWidth)` — in particular the remaining
overflow dumped on the last big column cannot push it below the
average. -/
theorem shrinkColumns_ge (ws : List Int) (a d : Int) (ha : 0 ≤ a) (hd : 0 < d)
    (hexcess : d ≤ ((bigColumnIndices ws a).map fun i => ws.getD i 0 - a).sum) :
    ∀ j, min (ws.getD j 0) a ≤ (shrinkColumns ws a d).getD j 0 := by
  have hBne : bigColumnIndices ws a ≠ [] := by
    intro h0
    rw [h0] at hexcess
    simp at hexcess
    omega
  obtain ⟨clen, cout, cin, clast, csum⟩ := shrinkColumns_char ws a d hBne
  set B := bigColumnIndices ws a with hBdef
  set f := shrinkFactorOf ws a d with hfdef
  set E : Int := (B.map fun i => ws.getD i 0 - a).sum with hEdef
  have hEk : (B.length : Int) ≤ E := by
    refine card_le_sum B _ fun i hi => ?_
    have := ((mem_bigColumnIndices ws a i).1 hi).2
    omega
  have hk1 : 0 < B.length := List.length_pos.2 hBne
  have hEpos : 0 < E := by
    have : (1 : Int) ≤ (B.length : Int) := by exact_mod_cast hk1
    omega
  have hWka : bigSum ws a - (B.length : Int) * a = E := by
    rw [hEdef, sum_map_sub_const]
    rw [bigSum, hBdef]
  have hfE : f = 1 - (d : ℚ) / (E : ℚ) := by
    rw [hfdef, shrinkFactorOf]
    rw [show ((bigSum ws a : ℚ) - ((bigColumnIndices ws a).length : ℚ) * (a : ℚ)) =
      ((bigSum ws a - ((bigColumnIndices ws a).length : Int) * a : Int) : ℚ) by push_cast; ring]
    rw [hWka]
  set t : ℚ := (d : ℚ) / (E : ℚ) with htdef
  have hEQpos : (0 : ℚ) < (E : ℚ) := by exact_mod_cast hEpos
  have hEQne : (E : ℚ) ≠ 0 := ne_of_gt hEQpos
  have ht0 : 0 ≤ t := div_nonneg (by exact_mod_cast le_of_lt hd) (le_of_lt hEQpos)
  have ht1 : t ≤ 1 := (div_le_one hEQpos).2 (by exact_mod_cast hexcess)
  have htE : t * (E : ℚ) = (d : ℚ) := div_mul_cancel₀ _ hEQne
  have haQ : (0 : ℚ) ≤ (a : ℚ) := by exact_mod_cast ha
  have hper : ∀ i ∈ B, t * ((ws.getD i 0 : ℚ) - (a : ℚ)) ≤
      ((ws.getD i 0 - shrinkF a f (ws.getD i 0) : Int) : ℚ) := by
    intro i hi
    have haw : a < ws.getD i 0 := ((mem_bigColumnIndices ws a i).1 hi).2
    have hawQ : (a : ℚ) < (ws.getD i 0 : ℚ) := by exact_mod_cast haw
    set w : Int := ws.getD i 0 with hwdef
    have hcast : ((w - shrinkF a f w : Int) : ℚ) = (w : ℚ) - max (a : ℚ) ((⌊f * (w : ℚ)⌋ : Int) : ℚ) := by
      rw [shrinkF]
      push_cast [Int.cast_max]
      ring
    rw [hcast]
    have hfloor : ((⌊f * (w : ℚ)⌋ : Int) : ℚ) ≤ f * (w : ℚ) := Int.floor_le _
    have hmax : max (a : ℚ) ((⌊f * (w : ℚ)⌋ : Int) : ℚ) ≤ max (a : ℚ) (f * (w : ℚ)) :=
      max_le_max (le_refl _) hfloor
    have hsuff : t * ((w : ℚ) - (a : ℚ)) ≤ (w : ℚ) - max (a : ℚ) (f * (w : ℚ)) := by
      rcases le_total (a : ℚ) (f * (w : ℚ)) with hle | hle
      · rw [max_eq_right hle]
        have hfw : (w : ℚ) - f * (w : ℚ) = t * (w : ℚ) := by rw [hfE]; ring
        rw [hfw]
        have : 0 ≤ t * (a : ℚ) := mul_nonneg ht0 haQ
        nlinarith
      · rw [max_eq_left hle]
        nlinarith [mul_nonneg (by linarith : (0 : ℚ) ≤ 1 - t) (by linarith : (0 : ℚ) ≤ (w : ℚ) - (a : ℚ))]
    linarith
  intro j
  by_cases hjB : j ∈ B
  · by_cases hjDL : j ∈ B.dropLast
    · rw [cin j hjDL]
      exact le_trans (min_le_right _ _) (le_max_left _ _)
    · have hj_last : j = B.getLast hBne := by
        have hsplit := List.dropLast_append_getLast hBne
        rw [← hsplit] at hjB
        rcases List.mem_append.1 hjB with h | h
        · exact absurd h hjDL
        · simpa using h
      rw [hj_last, clast]
      refine le_trans (min_le_right _ _) ?_
      set wl : Int := ws.getD (B.getLast hBne) 0 with hwl
      have hawl : a < wl := ((mem_bigColumnIndices ws a _).1 (List.getLast_mem hBne)).2
      set SDLr : Int := (B.dropLast.map fun i => ws.getD i 0 - shrinkF a f (ws.getD i 0)).sum with hSDLr
      set SDLe : Int := (B.dropLast.map fun i => ws.getD i 0 - a).sum with hSDLe
      have hsplitE : SDLe + (wl - a) = E := by
        rw [hSDLe, hEdef]
        conv_rhs => rw [← List.dropLast_append_getLast hBne]
        rw [List.map_append, List.sum_append]
        simp [hwl]
      have hQ1 : t * ((SDLe : Int) : ℚ) ≤ ((SDLr : Int) : ℚ) := by
        rw [hSDLr, hSDLe, Int.cast_list_sum, Int.cast_list_sum, List.map_map, List.map_map]
        have hcongr : (B.dropLast.map (Int.cast ∘ fun i => ws.getD i 0 - a) : List ℚ) =
            B.dropLast.map fun i => (ws.getD i 0 : ℚ) - (a : ℚ) := by
          refine List.map_congr_left fun i _ => ?_
          simp [Function.comp]
        rw [hcongr, ← List.sum_map_mul_left]
        refine List.sum_le_sum fun i hi => ?_
        have hiB : i ∈ B := (List.dropLast_sublist _).subset hi
        simpa using hper i hiB
      have hgoalQ : (a : ℚ) ≤ (wl : ℚ) - ((d : ℚ) - ((SDLr : Int) : ℚ)) := by
        have hsplitEQ : ((SDLe : Int) : ℚ) = (E : ℚ) - ((wl : ℚ) - (a : ℚ)) := by
          have := hsplitE
          push_cast [← this]
          ring
        rw [hsplitEQ] at hQ1
        have hawlQ : (a : ℚ) < (wl : ℚ) := by exact_mod_cast hawl
        nlinarith [mul_nonneg (by linarith : (0 : ℚ) ≤ 1 - t) (by linarith : (0 : ℚ) ≤ (wl : ℚ) - (a : ℚ))]
      exact_mod_cast hgoalQ
  · rw [cout j hjB]
    exact min_le_left _ _

/-- At the exact boundary (`overflow` equal to the total excess over the
average and every width at least the average), shrinking flattens every
column to exactly the average width. -/
theorem shrinkColumns_all_eq (ws : List Int) (a d : Int) (ha : 0 ≤ a) (hd : 0 < d)
    (hall : ∀ j, j < ws.length → a ≤ ws.getD j 0)
    (hexact : d = ((bigColumnIndices ws a).map fun i => ws.getD i 0 - a).sum) :
    ∀ j, j < ws.length → (shrinkColumns ws a d).getD j 0 = a := by
  have hBne : bigColumnIndices ws a ≠ [] := by
    intro h0
    rw [h0] at hexact
    simp at hexact
    omega
  obtain ⟨clen, cout, cin, clast, csum⟩ := shrinkColumns_char ws a d hBne
  set B := bigColumnIndices ws a with hBdef
  set E : Int := (B.map fun i => ws.getD i 0 - a).sum with hEdef
  have hWka : bigSum ws a - (B.length : Int) * a = E := by
    rw [hEdef, sum_map_sub_const]
    rw [bigSum, hBdef]
  have hf0 : shrinkFactorOf ws a d = 0 := by
    rw [shrinkFactorOf]
    rw [show ((bigSum ws a : ℚ) - ((bigColumnIndices ws a).length : ℚ) * (a : ℚ)) =
      ((bigSum ws a - ((bigColumnIndices ws a).length : Int) * a : Int) : ℚ) by push_cast; ring]
    rw [hWka, ← hexact]
    have hdQ : ((d : Int) : ℚ) ≠ 0 := by
      exact_mod_cast ne_of_gt hd
    field_simp
  have hshrinkF : ∀ w : Int, shrinkF a (shrinkFactorOf ws a d) w = a := by
    intro w
    rw [shrinkF, hf0]
    simp [ha]
  intro j hj
  by_cases hjB : j ∈ B
  · by_cases hjDL : j ∈ B.dropLast
    · rw [cin j hjDL, hshrinkF]
    · have hj_last : j = B.getLast hBne := by
        have hsplit := List.dropLast_append_getLast hBne
        rw [← hsplit] at hjB
        rcases List.mem_append.1 hjB with h | h
        · exact absurd h hjDL
        · simpa using h
      rw [hj_last, clast]
      have hmapa : (B.dropLast.map fun i =>
          ws.getD i 0 - shrinkF a (shrinkFactorOf ws a d) (ws.getD i 0)).sum =
          (B.dropLast.map fun i => ws.getD i 0 - a).sum := by
        congr 1
        exact List.map_congr_left fun i _ => by rw [hshrinkF]
      have hsplitE : (B.dropLast.map fun i => ws.getD i 0 - a).sum +
          (ws.getD (B.getLast hBne) 0 - a) = E := by
        rw [hEdef]
        conv_rhs => rw [← List.dropLast_append_getLast hBne]
        rw [List.map_append, List.sum_append]
        simp
      rw [hmapa]
      linarith [hsplitE, hexact]
  · have hnb : ¬(a < ws.getD j 0) := by
      intro hlt
      exact hjB ((mem_bigColumnIndices ws a j).2 ⟨hj, hlt⟩)
    have := hall j hj
    rw [cout j hjB]
    linarith

/-- The grow step never shrinks a column: with positive growth and
positive widths, every column ends at or above its old width. -/
theorem growColumns_ge (ws : List Int) (a g : Int) (hg : 0 < g)
    (hpos : ∀ j, j < ws.length → 0 < ws.getD j 0) :
    ∀ j, ws.getD j 0 ≤ (growColumns ws a g).getD j 0 := by
  by_cases hS : smallColumnIndices ws a = []
  · rw [growColumns_empty ws a g hS]
    intro j
    exact le_refl _
  obtain ⟨clen, cout, cin, clast, csum⟩ := growColumns_char ws a g hS
  set S := smallColumnIndices ws a with hSdef
  set SW : Int := smallSum ws a with hSWdef
  have hSWeq : SW = (S.map fun i => ws.getD i 0).sum := rfl
  have hSWsplit : (S.dropLast.map fun i => ws.getD i 0).sum + ws.getD (S.getLast hS) 0 = SW := by
    rw [hSWeq]
    conv_rhs => rw [← List.dropLast_append_getLast hS]
    rw [List.map_append, List.sum_append]
    simp
  have hSWk : (S.length : Int) ≤ SW := by
    rw [hSWeq]
    refine card_le_sum S _ fun i hi => ?_
    have := hpos i (smallColumnIndices_bound ws a i hi)
    omega
  have hk1 : 0 < S.length := List.length_pos.2 hS
  have hSWpos : 0 < SW := by
    have : (1 : Int) ≤ (S.length : Int) := by exact_mod_cast hk1
    omega
  have hSWQpos : (0 : ℚ) < (SW : ℚ) := by exact_mod_cast hSWpos
  have hSWQne : (SW : ℚ) ≠ 0 := ne_of_gt hSWQpos
  have hgf : growFactorOf ws a g = 1 + (g : ℚ) / (SW : ℚ) := by
    rw [growFactorOf, hSWdef]
  have hgf1 : (1 : ℚ) ≤ growFactorOf ws a g := by
    rw [hgf]
    have : 0 ≤ (g : ℚ) / (SW : ℚ) :=
      div_nonneg (by exact_mod_cast le_of_lt hg) (le_of_lt hSWQpos)
    linarith
  have hfloor_ge : ∀ i ∈ S, ws.getD i 0 ≤ ⌊growFactorOf ws a g * (ws.getD i 0 : ℚ)⌋ := by
    intro i hi
    rw [Int.le_floor]
    have hw : (0 : ℚ) ≤ (ws.getD i 0 : ℚ) := by
      exact_mod_cast le_of_lt (hpos i (smallColumnIndices_bound ws a i hi))
    nlinarith
  intro j
  by_cases hjS : j ∈ S
  · by_cases hjDL : j ∈ S.dropLast
    · rw [cin j hjDL]
      exact hfloor_ge j ((List.dropLast_sublist _).subset hjDL)
    · have hj_last : j = S.getLast hS := by
        have hsplit := List.dropLast_append_getLast hS
        rw [← hsplit] at hjS
        rcases List.mem_append.1 hjS with h | h
        · exact absurd h hjDL
        · simpa using h
      rw [hj_last, clast]
      have hbound : (S.dropLast.map fun i =>
          ⌊growFactorOf ws a g * (ws.getD i 0 : ℚ)⌋ - ws.getD i 0).sum ≤ g := by
        set wl : Int := ws.getD (S.getLast hS) 0 with hwl
        have hwlpos : 0 < wl := hpos _ (smallColumnIndices_bound ws a _ (List.getLast_mem hS))
        have hQ : ((S.dropLast.map fun i =>
            ⌊growFactorOf ws a g * (ws.getD i 0 : ℚ)⌋ - ws.getD i 0).sum : ℚ) ≤
            ((g : ℚ) / (SW : ℚ)) * ((SW : ℚ) - (wl : ℚ)) := by
          rw [Int.cast_list_sum, List.map_map]
          have hstep : ((S.dropLast.map (Int.cast ∘ fun i =>
              ⌊growFactorOf ws a g * (ws.getD i 0 : ℚ)⌋ - ws.getD i 0)) : List ℚ).sum ≤
              (S.dropLast.map fun i => ((g : ℚ) / (SW : ℚ)) * (ws.getD i 0 : ℚ)).sum := by
            refine List.sum_le_sum fun i _ => ?_
            simp only [Function.comp]
            push_cast
            have hfl : ((⌊growFactorOf ws a g * (ws.getD i 0 : ℚ)⌋ : Int) : ℚ) ≤
                growFactorOf ws a g * (ws.getD i 0 : ℚ) := Int.floor_le _
            rw [hgf] at hfl ⊢
            linarith
          refine le_trans hstep ?_
          rw [List.sum_map_mul_left]
          have hsum_eq : ((S.dropLast.map fun i => (ws.getD i 0 : ℚ)).sum) =
              (SW : ℚ) - (wl : ℚ) := by
            have : (((S.dropLast.map fun i => ws.getD i 0).sum : Int) : ℚ) =
                (SW : ℚ) - (wl : ℚ) := by
              rw [show (S.dropLast.map fun i => ws.getD i 0).sum = SW - wl by omega]
              push_cast
              ring
            rw [← this, Int.cast_list_sum, List.map_map]
            congr 1
          exact le_of_eq (by rw [hsum_eq])
        have hQ2 : ((g : ℚ) / (SW : ℚ)) * ((SW : ℚ) - (wl : ℚ)) ≤ (g : ℚ) := by
          have hcancel : ((g : ℚ) / (SW : ℚ)) * (SW : ℚ) = (g : ℚ) := div_mul_cancel₀ _ hSWQne
          have hwlQ : (0 : ℚ) ≤ (wl : ℚ) := by exact_mod_cast le_of_lt hwlpos
          have hdiv : 0 ≤ (g : ℚ) / (SW : ℚ) :=
            div_nonneg (by exact_mod_cast le_of_lt hg) (le_of_lt hSWQpos)
          nlinarith
        exact_mod_cast le_trans hQ hQ2
      linarith [hbound]
  · rw [cout j hjS]

theorem sum_map_const_int {α : Type} (l : List α) (c : Int) :
    (l.map fun _ => c).sum = (l.length : Int) * c := by
  rw [List.map_const', List.sum_replicate, nsmul_eq_mul]

theorem getD_map_const (l : List Int) (c : Int) (i : Nat) (hi : i < l.length) :
    (l.map fun _ => c).getD i 0 = c := by
  rw [List.getD_eq_getElem?_getD, List.getElem?_map,
    List.getElem?_eq_getElem hi]
  rfl

theorem sum_le_of_getD_le (l : List Int) (a : Int)
    (h : ∀ i, i < l.length → l.getD i 0 ≤ a) : l.sum ≤ (l.length : Int) * a := by
  rw [← sum_map_range_getD l]
  calc ((List.range l.length).map fun i => l.getD i 0).sum
      ≤ ((List.range l.length).map fun _ => a).sum :=
        List.sum_le_sum fun i hi => h i (List.mem_range.1 hi)
    _ = (l.length : Int) * a := by
        rw [sum_map_const_int]
        simp

theorem sum_range_getD_sub (l : List Int) (a : Int) :
    ((List.range l.length).map fun i => l.getD i 0 - a).sum = l.sum - (l.length : Int) * a := by
  rw [sum_map_sub_const, sum_map_range_getD]
  simp

/-- The overflow never exceeds the total excess of the big columns over
the average, as long as the average satisfies
`columnCount * average ≤ available`. -/
theorem overflow_le_bigExcess (ws : List Int) (a A : Int)
    (hcca : (ws.length : Int) * a ≤ A) :
    ws.sum - A ≤ ((bigColumnIndices ws a).map fun i => ws.getD i 0 - a).sum := by
  have hsplit := sum_filter_add_sum_filter_not (List.range ws.length)
    (fun i => ws.getD i 0 > a) (fun i => ws.getD i 0 - a)
  have hbigeq : (List.range ws.length).filter (fun i => ws.getD i 0 > a) =
      bigColumnIndices ws a := rfl
  rw [hbigeq, sum_range_getD_sub] at hsplit
  have hnonpos : (((List.range ws.length).filter fun i => !(ws.getD i 0 > a)).map
      fun i => ws.getD i 0 - a).sum ≤ 0 := by
    have hle : (((List.range ws.length).filter fun i => !(ws.getD i 0 > a)).map
        fun i => ws.getD i 0 - a).sum ≤
        (((List.range ws.length).filter fun i => !(ws.getD i 0 > a)).map
          fun _ => (0 : Int)).sum := by
      refine List.sum_le_sum fun i hi => ?_
      have := (List.mem_filter.1 hi).2
      simp only [Bool.not_eq_true', decide_eq_false_iff_not, not_lt] at this
      omega
    simpa using hle
  linarith

theorem bigColumnIndices_ne_nil_of_overflow (ws : List Int) (a A : Int)
    (hcca : (ws.length : Int) * a ≤ A) (hover : A < ws.sum) :
    bigColumnIndices ws a ≠ [] := by
  intro h0
  have hall : ∀ i, i < ws.length → ws.getD i 0 ≤ a := by
    intro i hi
    by_contra hlt
    push_neg at hlt
    have : i ∈ bigColumnIndices ws a := (mem_bigColumnIndices ws a i).2 ⟨hi, hlt⟩
    rw [h0] at this
    exact absurd this (List.not_mem_nil i)
  have := sum_le_of_getD_le ws a hall
  linarith

theorem averageWidth_mul_le (cc : Nat) (mw : Int) (hcc : 0 < cc)
    (hA : 0 ≤ availableWidth cc mw) :
    (cc : Int) * averageWidth cc mw ≤ availableWidth cc mw := by
  have hccZ : (0 : Int) < (cc : Int) := by exact_mod_cast hcc
  rw [averageWidth, Int.fdiv_eq_ediv _ (le_of_lt hccZ)]
  have hmod := Int.emod_nonneg (availableWidth cc mw) (ne_of_gt hccZ)
  have hdm := Int.ediv_add_emod (availableWidth cc mw) (cc : Int)
  linarith

theorem le_averageWidth (cc : Nat) (mw : Int) (hcc : 0 < cc)
    (h3 : 3 * (cc : Int) ≤ availableWidth cc mw) :
    3 ≤ averageWidth cc mw := by
  have hccZ : (0 : Int) < (cc : Int) := by exact_mod_cast hcc
  rw [averageWidth, Int.fdiv_eq_ediv _ (le_of_lt hccZ)]
  exact (Int.le_ediv_iff_mul_le hccZ).2 h3

theorem jsMax_ge {l : List Int} {x : Int} (hx : x ∈ l) : x ≤ jsMax l := by
  cases l with
  | nil => simp at hx
  | cons y t =>
    rw [jsMax]
    rcases List.mem_cons.1 hx with h | h
    · exact h ▸ foldl_max_le_acc t y
    · exact mem_le_foldl_max h y

theorem naturalWidths_length (names : List Str) (content : List (List Str)) :
    (naturalWidths names content).length = names.length := by
  simp [naturalWidths, List.enum_length]

theorem naturalWidths_getD (names : List Str) (content : List (List Str)) (i : Nat)
    (hi : i < names.length) :
    (naturalWidths names content).getD i 0 =
      (content.map fun row => ((row.getD i []).length : Int) + 2).foldl max
        (((names.getD i []).length : Int) + 2) := by
  rw [naturalWidths, List.getD_eq_getElem?_getD, List.getElem?_map, List.getElem?_enum,
    List.getElem?_eq_getElem hi, List.getD_eq_getElem?_getD, List.getElem?_eq_getElem hi]
  rfl

theorem naturalWidths_ge2 (names : List Str) (content : List (List Str)) (i : Nat)
    (hi : i < names.length) : 2 ≤ (naturalWidths names content).getD i 0 := by
  rw [naturalWidths_getD names content i hi]
  refine le_trans ?_ (foldl_max_le_acc _ _)
  have : (0 : Int) ≤ ((names.getD i []).length : Int) := by positivity
  linarith

theorem getD_mem (l : List Int) (i : Nat) (h : i < l.length) : l.getD i 0 ∈ l := by
  rw [List.getD_eq_getElem?_getD, List.getElem?_eq_getElem h]
  exact List.getElem_mem h

theorem sum_ge_of_getD_ge (l : List Int) (c : Int)
    (h : ∀ i, i < l.length → c ≤ l.getD i 0) : (l.length : Int) * c ≤ l.sum := by
  rw [← sum_map_range_getD l]
  calc (l.length : Int) * c
      = ((List.range l.length).map fun _ => c).sum := by rw [sum_map_const_int]; simp
    _ ≤ ((List.range l.length).map fun i => l.getD i 0).sum :=
        List.sum_le_sum fun i hi => h i (List.mem_range.1 hi)

theorem all_zero_of_nonneg_sum_nonpos (L : List Int) (h : ∀ x ∈ L, 0 ≤ x)
    (hs : L.sum ≤ 0) : ∀ x ∈ L, x = 0 := by
  induction L with
  | nil => simp
  | cons y t ih =>
    have hy : 0 ≤ y := h y (List.mem_cons_self y t)
    have ht : ∀ x ∈ t, 0 ≤ x := fun x hx => h x (List.mem_cons_of_mem y hx)
    have htsum : 0 ≤ t.sum := List.sum_nonneg ht
    rw [List.sum_cons] at hs
    intro x hx
    rcases List.mem_cons.1 hx with he | hm
    · omega
    · exact ih ht (by omega) x hm

theorem getD_eq_of_sum_le (l : List Int) (c : Int)
    (hall : ∀ i, i < l.length → c ≤ l.getD i 0)
    (hsum : l.sum ≤ (l.length : Int) * c) :
    ∀ i, i < l.length → l.getD i 0 = c := by
  have hz : ∀ x ∈ (List.range l.length).map fun i => l.getD i 0 - c, x = 0 := by
    refine all_zero_of_nonneg_sum_nonpos _ ?_ ?_
    · intro x hx
      obtain ⟨i, hi, he⟩ := List.mem_map.1 hx
      have := hall i (List.mem_range.1 hi)
      omega
    · rw [sum_range_getD_sub]
      omega
  intro i hi
  have hmem : l.getD i 0 - c ∈ (List.range l.length).map fun i => l.getD i 0 - c :=
    List.mem_map.2 ⟨i, List.mem_range.2 hi, rfl⟩
  have := hz _ hmem
  omega

/-- When every column is at least the average wide, the overflow equals
exactly the big columns' excess (the non-big columns sit exactly at the
average). -/
theorem overflow_eq_bigExcess_of_all_ge (ws : List Int) (a : Int)
    (hall : ∀ i, i < ws.length → a ≤ ws.getD i 0) :
    ws.sum - (ws.length : Int) * a =
      ((bigColumnIndices ws a).map fun i => ws.getD i 0 - a).sum := by
  have hsplit := sum_filter_add_sum_filter_not (List.range ws.length)
    (fun i => ws.getD i 0 > a) (fun i => ws.getD i 0 - a)
  have hbigeq : (List.range ws.length).filter (fun i => ws.getD i 0 > a) =
      bigColumnIndices ws a := rfl
  rw [hbigeq, sum_range_getD_sub] at hsplit
  have hzero : (((List.range ws.length).filter fun i => !(ws.getD i 0 > a)).map
      fun i => ws.getD i 0 - a).sum = 0 := by
    refine List.sum_eq_zero fun x hx => ?_
    obtain ⟨i, hi, he⟩ := List.mem_map.1 hx
    have h1 := (List.mem_filter.1 hi).2
    have h2 := List.mem_range.1 (List.mem_filter.1 hi).1
    simp only [Bool.not_eq_true', decide_eq_false_iff_not, not_lt] at h1
    have := hall i h2
    omega
  linarith

/-- After the sizing switch the widths have the original column count,
their total equals `available + overflow` for the final value of the
mutable `overflow` variable, and that value is never positive. -/
theorem sizedWidths_facts (cc : Nat) (natW : List Int) (o : TableOptions)
    (hlen : natW.length = cc) (hA : 0 ≤ availableWidth cc o.maxWidth) :
    (sizedWidths cc natW o).1.length = cc ∧
    (sizedWidths cc natW o).1.sum = availableWidth cc o.maxWidth + (sizedWidths cc natW o).2 ∧
    (sizedWidths cc natW o).2 ≤ 0 := by
  cases hcs : o.columnSizing with
  | stretch =>
    simp only [sizedWidths, hcs]
    rw [foldl_add_eq, zero_add]
    by_cases hov : natW.sum - availableWidth cc o.maxWidth > 0
    · rw [if_pos hov]
      have hcc : 0 < cc := by
        rcases Nat.eq_zero_or_pos cc with h0 | h0
        · subst h0
          have : natW = [] := List.length_eq_zero.1 hlen
          subst this
          simp at hov
          linarith
        · exact h0
      have hmul := averageWidth_mul_le cc o.maxWidth hcc hA
      have hbig : bigColumnIndices natW (averageWidth cc o.maxWidth) ≠ [] := by
        refine bigColumnIndices_ne_nil_of_overflow natW _ (availableWidth cc o.maxWidth) ?_ ?_
        · rw [hlen]; exact hmul
        · linarith
      obtain ⟨clen, -, -, -, csum⟩ :=
        shrinkColumns_char natW (averageWidth cc o.maxWidth)
          (natW.sum - availableWidth cc o.maxWidth) hbig
      exact ⟨clen.trans hlen, by rw [csum]; ring, le_refl 0⟩
    · rw [if_neg hov]
      push_neg at hov
      exact ⟨hlen, by ring, by omega⟩
  | even =>
    simp only [sizedWidths, hcs]
    by_cases hov : jsMax natW * (cc : Int) - availableWidth cc o.maxWidth > 0
    · rw [if_pos hov]
      have hcc : 0 < cc := by
        rcases Nat.eq_zero_or_pos cc with h0 | h0
        · subst h0
          simp at hov
          linarith
        · exact h0
      have hmul := averageWidth_mul_le cc o.maxWidth hcc hA
      have hlen2 : (natW.map fun _ => jsMax natW).length = cc := by
        rw [List.length_map, hlen]
      have hsum2 : (natW.map fun _ => jsMax natW).sum = (cc : Int) * jsMax natW := by
        rw [sum_map_const_int, hlen]
      have hbig : bigColumnIndices (natW.map fun _ => jsMax natW)
          (averageWidth cc o.maxWidth) ≠ [] := by
        refine bigColumnIndices_ne_nil_of_overflow _ _ (availableWidth cc o.maxWidth) ?_ ?_
        · rw [hlen2]; exact hmul
        · rw [hsum2]; nlinarith [hov]
      obtain ⟨clen, -, -, -, csum⟩ :=
        shrinkColumns_char (natW.map fun _ => jsMax natW) (averageWidth cc o.maxWidth)
          (jsMax natW * (cc : Int) - availableWidth cc o.maxWidth) hbig
      refine ⟨clen.trans hlen2, ?_, le_refl 0⟩
      rw [csum, hsum2]
      ring
    · rw [if_neg hov]
      push_neg at hov
      refine ⟨by rw [List.length_map, hlen], ?_, by omega⟩
      rw [sum_map_const_int, hlen]
      ring

/-- Final widths: count preserved and total within the budget. -/
theorem solvedWidths_len_sum (cc : Nat) (natW : List Int) (o : TableOptions)
    (hlen : natW.length = cc) (hA : 0 ≤ availableWidth cc o.maxWidth) :
    (solvedWidths cc natW o).length = cc ∧
    (solvedWidths cc natW o).sum ≤ availableWidth cc o.maxWidth := by
  obtain ⟨slen, ssum, sle⟩ := sizedWidths_facts cc natW o hlen hA
  rw [solvedWidths]
  by_cases hg : o.fullWidth ∧ (sizedWidths cc natW o).2 < 0
  · rw [if_pos hg]
    by_cases hsm : smallColumnIndices (sizedWidths cc natW o).1 (averageWidth cc o.maxWidth) = []
    · rw [growColumns_empty _ _ _ hsm]
      exact ⟨slen, by linarith⟩
    · obtain ⟨glen, -, -, -, gsum⟩ :=
        growColumns_char (sizedWidths cc natW o).1 (averageWidth cc o.maxWidth)
          (-(sizedWidths cc natW o).2) hsm
      exact ⟨glen.trans slen, by rw [gsum]; linarith⟩
  · rw [if_neg hg]
    exact ⟨slen, by linarith⟩

/-- Under `fullWidth`, the budget is met exactly as soon as either no
growth is needed or some column lies strictly below the average (so the
grow step has a column to give the remainder to). -/
theorem solvedWidths_sum_eq_of_full (cc : Nat) (natW : List Int) (o : TableOptions)
    (hlen : natW.length = cc) (hA : 0 ≤ availableWidth cc o.maxWidth)
    (hfw : o.fullWidth = true)
    (hsm : (sizedWidths cc natW o).2 < 0 →
      smallColumnIndices (sizedWidths cc natW o).1 (averageWidth cc o.maxWidth) ≠ []) :
    (solvedWidths cc natW o).sum = availableWidth cc o.maxWidth := by
  obtain ⟨slen, ssum, sle⟩ := sizedWidths_facts cc natW o hlen hA
  rw [solvedWidths]
  by_cases hov : (sizedWidths cc natW o).2 < 0
  · rw [if_pos ⟨by rw [hfw], hov⟩]
    obtain ⟨-, -, -, -, gsum⟩ :=
      growColumns_char (sizedWidths cc natW o).1 (averageWidth cc o.maxWidth)
        (-(sizedWidths cc natW o).2) (hsm hov)
    rw [gsum]
    linarith
  · rw [if_neg fun hc => hov hc.2]
    have : (sizedWidths cc natW o).2 = 0 := le_antisymm sle (not_lt.1 hov)
    linarith

/-- With a feasible width and every natural width at least 3, the sizing
switch keeps every column at least 3 wide. -/
theorem sizedWidths_ge3 (cc : Nat) (natW : List Int) (o : TableOptions)
    (hlen : natW.length = cc) (hcc : 0 < cc)
    (hfe : 3 * (cc : Int) ≤ availableWidth cc o.maxWidth)
    (hnat3 : ∀ i, i < cc → 3 ≤ natW.getD i 0) :
    ∀ i, i < cc → 3 ≤ (sizedWidths cc natW o).1.getD i 0 := by
  have hccZ : (0 : Int) < (cc : Int) := by exact_mod_cast hcc
  have hA : 0 ≤ availableWidth cc o.maxWidth := by linarith
  have ha3 : 3 ≤ averageWidth cc o.maxWidth := le_averageWidth cc o.maxWidth hcc hfe
  have hmul := averageWidth_mul_le cc o.maxWidth hcc hA
  cases hcs : o.columnSizing with
  | stretch =>
    simp only [sizedWidths, hcs]
    rw [foldl_add_eq, zero_add]
    by_cases hov : natW.sum - availableWidth cc o.maxWidth > 0
    · rw [if_pos hov]
      intro i hi
      have hexcess : natW.sum - availableWidth cc o.maxWidth ≤
          ((bigColumnIndices natW (averageWidth cc o.maxWidth)).map
            fun i => natW.getD i 0 - averageWidth cc o.maxWidth).sum :=
        overflow_le_bigExcess natW _ _ (by rw [hlen]; exact hmul)
      have hge := shrinkColumns_ge natW (averageWidth cc o.maxWidth)
        (natW.sum - availableWidth cc o.maxWidth) (by linarith) hov hexcess i
      have hmin : (3 : Int) ≤ min (natW.getD i 0) (averageWidth cc o.maxWidth) :=
        le_min (hnat3 i hi) ha3
      linarith
    · rw [if_neg hov]
      exact hnat3
  | even =>
    simp only [sizedWidths, hcs]
    have hlenpos : 0 < natW.length := by rw [hlen]; exact hcc
    have hM3 : 3 ≤ jsMax natW :=
      le_trans (hnat3 0 hcc) (jsMax_ge (getD_mem natW 0 hlenpos))
    by_cases hov : jsMax natW * (cc : Int) - availableWidth cc o.maxWidth > 0
    · rw [if_pos hov]
      intro i hi
      have hlen2 : (natW.map fun _ => jsMax natW).length = cc := by
        rw [List.length_map, hlen]
      have hsum2 : (natW.map fun _ => jsMax natW).sum = (cc : Int) * jsMax natW := by
        rw [sum_map_const_int, hlen]
      have hexcess : (natW.map fun _ => jsMax natW).sum - availableWidth cc o.maxWidth ≤
          ((bigColumnIndices (natW.map fun _ => jsMax natW)
            (averageWidth cc o.maxWidth)).map
              fun i => (natW.map fun _ => jsMax natW).getD i 0 -
                averageWidth cc o.maxWidth).sum :=
        overflow_le_bigExcess _ _ _ (by rw [hlen2]; exact hmul)
      have hov2 : 0 < (natW.map fun _ => jsMax natW).sum - availableWidth cc o.maxWidth := by
        rw [hsum2]
        nlinarith [hov]
      have hdeq : jsMax natW * (cc : Int) - availableWidth cc o.maxWidth =
          (natW.map fun _ => jsMax natW).sum - availableWidth cc o.maxWidth := by
        rw [hsum2]
        ring
      rw [hdeq]
      have hge := shrinkColumns_ge (natW.map fun _ => jsMax natW)
        (averageWidth cc o.maxWidth)
        ((natW.map fun _ => jsMax natW).sum - availableWidth cc o.maxWidth)
        (by linarith) hov2 hexcess i
      have hgetD : (natW.map fun _ => jsMax natW).getD i 0 = jsMax natW :=
        getD_map_const natW _ i (by rw [hlen]; exact hi)
      rw [hgetD] at hge
      have hmin : (3 : Int) ≤ min (jsMax natW) (averageWidth cc o.maxWidth) :=
        le_min hM3 ha3
      linarith
    · rw [if_neg hov]
      intro i hi
      rw [getD_map_const natW _ i (by rw [hlen]; exact hi)]
      exact hM3

/-- With a feasible width and every natural width at least 3, the final
solved widths are all at least 3 (the post-check passes). -/
theorem solvedWidths_ge3 (cc : Nat) (natW : List Int) (o : TableOptions)
    (hlen : natW.length = cc) (hcc : 0 < cc)
    (hfe : 3 * (cc : Int) ≤ availableWidth cc o.maxWidth)
    (hnat3 : ∀ i, i < cc → 3 ≤ natW.getD i 0) :
    ∀ i, i < cc → 3 ≤ (solvedWidths cc natW o).getD i 0 := by
  have hccZ : (0 : Int) < (cc : Int) := by exact_mod_cast hcc
  have hA : 0 ≤ availableWidth cc o.maxWidth := by linarith
  have hs3 := sizedWidths_ge3 cc natW o hlen hcc hfe hnat3
  obtain ⟨slen, -, -⟩ := sizedWidths_facts cc natW o hlen hA
  rw [solvedWidths]
  by_cases hg : o.fullWidth ∧ (sizedWidths cc natW o).2 < 0
  · rw [if_pos hg]
    intro i hi
    have hpos : ∀ j, j < (sizedWidths cc natW o).1.length →
        0 < (sizedWidths cc natW o).1.getD j 0 := by
      intro j hj
      have := hs3 j (by rw [← slen]; exact hj)
      linarith
    have := growColumns_ge (sizedWidths cc natW o).1 (averageWidth cc o.maxWidth)
      (-(sizedWidths cc natW o).2) (by linarith [hg.2]) hpos i
    linarith [hs3 i hi]
  · rw [if_neg hg]
    exact hs3

/-- At the exact feasibility boundary `maxWidth = 4 * columnCount + 1`
with natural widths at least 3, the sizing switch gives every column
exactly width 3. -/
theorem sizedWidths_all3 (cc : Nat) (natW : List Int) (o : TableOptions)
    (hlen : natW.length = cc) (hcc : 0 < cc)
    (hmw : o.maxWidth = 4 * (cc : Int) + 1)
    (hnat3 : ∀ i, i < cc → 3 ≤ natW.getD i 0) :
    ∀ i, i < cc → (sizedWidths cc natW o).1.getD i 0 = 3 := by
  have hccZ : (0 : Int) < (cc : Int) := by exact_mod_cast hcc
  have hAeq : availableWidth cc o.maxWidth = 3 * (cc : Int) := by
    rw [availableWidth, hmw]
    ring
  have hA : 0 ≤ availableWidth cc o.maxWidth := by rw [hAeq]; positivity
  have ha3 : 3 ≤ averageWidth cc o.maxWidth :=
    le_averageWidth cc o.maxWidth hcc (by rw [hAeq])
  have hmul := averageWidth_mul_le cc o.maxWidth hcc hA
  have hale : averageWidth cc o.maxWidth ≤ 3 := by
    rw [hAeq] at hmul
    nlinarith
  have haeq : averageWidth cc o.maxWidth = 3 := le_antisymm hale ha3
  cases hcs : o.columnSizing with
  | stretch =>
    simp only [sizedWidths, hcs]
    rw [foldl_add_eq, zero_add]
    by_cases hov : natW.sum - availableWidth cc o.maxWidth > 0
    · rw [if_pos hov]
      have hall : ∀ j, j < natW.length → averageWidth cc o.maxWidth ≤ natW.getD j 0 := by
        intro j hj
        rw [haeq]
        exact hnat3 j (by rw [← hlen]; exact hj)
      have hexact : natW.sum - availableWidth cc o.maxWidth =
          ((bigColumnIndices natW (averageWidth cc o.maxWidth)).map
            fun i => natW.getD i 0 - averageWidth cc o.maxWidth).sum := by
        rw [← overflow_eq_bigExcess_of_all_ge natW _ hall, hlen, haeq, hAeq]
        ring
      have := shrinkColumns_all_eq natW (averageWidth cc o.maxWidth)
        (natW.sum - availableWidth cc o.maxWidth) (by linarith) hov hall hexact
      intro i hi
      rw [this i (by rw [← hlen] at hi; exact hi), haeq]
    · rw [if_neg hov]
      push_neg at hov
      rw [hAeq] at hov
      have hsum_le : natW.sum ≤ (natW.length : Int) * 3 := by
        rw [hlen]
        linarith
      exact fun i hi => getD_eq_of_sum_le natW 3
        (fun j hj => hnat3 j (by rw [← hlen]; exact hj)) hsum_le i (by rw [hlen]; exact hi)
  | even =>
    simp only [sizedWidths, hcs]
    have hlenpos : 0 < natW.length := by rw [hlen]; exact hcc
    have hM3 : 3 ≤ jsMax natW :=
      le_trans (hnat3 0 hcc) (jsMax_ge (getD_mem natW 0 hlenpos))
    by_cases hov : jsMax natW * (cc : Int) - availableWidth cc o.maxWidth > 0
    · rw [if_pos hov]
      have hlen2 : (natW.map fun _ => jsMax natW).length = cc := by
        rw [List.length_map, hlen]
      have hsum2 : (natW.map fun _ => jsMax natW).sum = (cc : Int) * jsMax natW := by
        rw [sum_map_const_int, hlen]
      have hall : ∀ j, j < (natW.map fun _ => jsMax natW).length →
          averageWidth cc o.maxWidth ≤ (natW.map fun _ => jsMax natW).getD j 0 := by
        intro j hj
        rw [getD_map_const natW _ j (by rw [← List.length_map natW fun _ => jsMax natW]; exact hj),
          haeq]
        exact hM3
      have hexact : jsMax natW * (cc : Int) - availableWidth cc o.maxWidth =
          ((bigColumnIndices (natW.map fun _ => jsMax natW)
            (averageWidth cc o.maxWidth)).map
              fun i => (natW.map fun _ => jsMax natW).getD i 0 -
                averageWidth cc o.maxWidth).sum := by
        rw [← overflow_eq_bigExcess_of_all_ge _ _ hall, hlen2, hsum2, haeq, hAeq]
        ring
      have := shrinkColumns_all_eq (natW.map fun _ => jsMax natW)
        (averageWidth cc o.maxWidth)
        (jsMax natW * (cc : Int) - availableWidth cc o.maxWidth) (by linarith) hov hall hexact
      intro i hi
      rw [this i (by rw [hlen2]; exact hi), haeq]
    · rw [if_neg hov]
      push_neg at hov
      rw [hAeq] at hov
      have hMle : jsMax natW ≤ 3 := by nlinarith
      have hMeq : jsMax natW = 3 := le_antisymm hMle hM3
      intro i hi
      rw [getD_map_const natW _ i (by rw [hlen]; exact hi), hMeq]

/-- At the exact feasibility boundary with natural widths at least 3,
every final solved width is exactly 3. -/
theorem solvedWidths_all3 (cc : Nat) (natW : List Int) (o : TableOptions)
    (hlen : natW.length = cc) (hcc : 0 < cc)
    (hmw : o.maxWidth = 4 * (cc : Int) + 1)
    (hnat3 : ∀ i, i < cc → 3 ≤ natW.getD i 0) :
    ∀ i, i < cc → (solvedWidths cc natW o).getD i 0 = 3 := by
  have hccZ : (0 : Int) < (cc : Int) := by exact_mod_cast hcc
  have hAeq : availableWidth cc o.maxWidth = 3 * (cc : Int) := by
    rw [availableWidth, hmw]
    ring
  have hA : 0 ≤ availableWidth cc o.maxWidth := by rw [hAeq]; positivity
  have hs3 := sizedWidths_all3 cc natW o hlen hcc hmw hnat3
  obtain ⟨slen, ssum, -⟩ := sizedWidths_facts cc natW o hlen hA
  have hsum3 : (sizedWidths cc natW o).1.sum = (cc : Int) * 3 := by
    rw [← sum_map_range_getD (sizedWidths cc natW o).1, slen]
    have : ((List.range cc).map fun i => (sizedWidths cc natW o).1.getD i 0) =
        (List.range cc).map fun _ => (3 : Int) :=
      List.map_congr_left fun i hi => hs3 i (List.mem_range.1 hi)
    rw [this, sum_map_const_int]
    simp
  have hov0 : (sizedWidths cc natW o).2 = 0 := by
    rw [hsum3, hAeq] at ssum
    linarith
  rw [solvedWidths, if_neg fun hc => by rw [hov0] at hc; exact absurd hc.2 (by omega)]
  exact hs3

/-! ### String-level lemmas -/

theorem wrapCellGo_congr (w : Nat) (hw : w ≠ 0) :
    ∀ fuel fuel2 (s : Str), s.length ≤ fuel → s.length ≤ fuel2 →
      wrapCellGo fuel w s = wrapCellGo fuel2 w s := by
  intro fuel
  induction fuel with
  | zero =>
    intro fuel2 s hs _
    have hnil : s = [] := List.eq_nil_of_length_eq_zero (Nat.le_zero.1 hs)
    subst hnil
    cases fuel2 with
    | zero => rfl
    | succ n => simp [wrapCellGo]
  | succ n ih =>
    intro fuel2 s hs hs2
    cases fuel2 with
    | zero =>
      have hnil : s = [] := List.eq_nil_of_length_eq_zero (Nat.le_zero.1 hs2)
      subst hnil
      simp [wrapCellGo]
    | succ m =>
      by_cases hse : s = []
      · subst hse
        simp [wrapCellGo]
      · have hlen : 0 < s.length := List.length_pos.2 hse
        rw [wrapCellGo, wrapCellGo, if_neg hse, if_neg hse, if_neg hw, if_neg hw]
        have hdrop : (s.drop w).length = s.length - w := List.length_drop w s
        have h1 : (s.drop w).length ≤ n := by omega
        have h2 : (s.drop w).length ≤ m := by omega
        rw [ih m (s.drop w) h1 h2]

/-- The defining equation of the wrapping loop. -/
theorem wrapCell_eq (w : Nat) (s : Str) :
    wrapCell w s = if s = [] then []
      else if w = 0 then []
      else s.take w :: wrapCell w (s.drop w) := by
  by_cases hse : s = []
  · subst hse
    simp [wrapCell, wrapCellGo]
  · rw [if_neg hse]
    by_cases hw : w = 0
    · subst hw
      rw [if_pos rfl, wrapCell]
      cases hsl : s.length with
      | zero => exact absurd (List.eq_nil_of_length_eq_zero hsl) hse
      | succ n =>
        rw [wrapCellGo, if_neg hse, if_pos rfl]
    · rw [if_neg hw, wrapCell, wrapCell]
      have hlen : 0 < s.length := List.length_pos.2 hse
      cases hsl : s.length with
      | zero => omega
      | succ n =>
        rw [wrapCellGo, if_neg hse, if_neg hw]
        congr 1
        have hdrop : (s.drop w).length = s.length - w := List.length_drop w s
        exact wrapCellGo_congr w hw n (s.drop w).length (s.drop w) (by omega) (le_refl _)

theorem wrapCell_nil (w : Nat) : wrapCell w [] = [] := by
  rw [wrapCell_eq]
  simp

theorem wrapCell_props_aux (w : Nat) (hw : w ≠ 0) :
    ∀ n (s : Str), s.length ≤ n →
      (wrapCell w s).flatten = s ∧
      ∀ c ∈ wrapCell w s, c.length ≤ w ∧ c ≠ [] ∧ ∀ ch ∈ c, ch ∈ s := by
  intro n
  induction n with
  | zero =>
    intro s hs
    have hnil : s = [] := List.eq_nil_of_length_eq_zero (Nat.le_zero.1 hs)
    subst hnil
    rw [wrapCell_nil]
    simp
  | succ n ih =>
    intro s hs
    by_cases hse : s = []
    · subst hse
      rw [wrapCell_nil]
      simp
    · rw [wrapCell_eq, if_neg hse, if_neg hw]
      have hlen : 0 < s.length := List.length_pos.2 hse
      have hdrop : (s.drop w).length ≤ n := by
        rw [List.length_drop]
        omega
      obtain ⟨ihflat, ihmem⟩ := ih (s.drop w) hdrop
      refine ⟨?_, ?_⟩
      · rw [List.flatten_cons, ihflat, List.take_append_drop]
      · intro c hc
        rcases List.mem_cons.1 hc with he | hm
        · subst he
          refine ⟨by rw [List.length_take]; omega, ?_, fun ch hch => List.take_subset w s hch⟩
          have : (s.take w).length = min w s.length := List.length_take w s
          intro htk
          rw [htk] at this
          simp at this
          omega
        · obtain ⟨h1, h2, h3⟩ := ihmem c hm
          exact ⟨h1, h2, fun ch hch => List.drop_subset w s (h3 ch hch)⟩

/-- The wrapped chunks of a cell flatten back to the cell, each chunk is
at most `innerWidth` long and nonempty, and chunk characters come from
the cell. -/
theorem wrapCell_props (w : Nat) (hw : w ≠ 0) (s : Str) :
    (wrapCell w s).flatten = s ∧
      ∀ c ∈ wrapCell w s, c.length ≤ w ∧ c ≠ [] ∧ ∀ ch ∈ c, ch ∈ s :=
  wrapCell_props_aux w hw s.length s (le_refl _)

theorem wrapCell_ne_nil (w : Nat) (hw : w ≠ 0) (s : Str) (hs : s ≠ []) :
    wrapCell w s ≠ [] := by
  rw [wrapCell_eq, if_neg hs, if_neg hw]
  simp

theorem splitNl_ne_nil (s : Str) : splitNl s ≠ [] := by
  induction s with
  | nil => simp [splitNl]
  | cons c cs ih =>
    rw [splitNl]
    by_cases hc : c = NL
    · simp [hc]
    · rw [if_neg hc]
      rcases hm : splitNl cs with _ | ⟨l, ls⟩
      · simp
      · simp

theorem splitNl_cons_nl (cs : Str) : splitNl (NL :: cs) = [] :: splitNl cs := by
  rw [splitNl, if_pos rfl]

theorem splitNl_cons_ne (c : Char) (cs : Str) (hc : c ≠ NL) :
    splitNl (c :: cs) = (c :: (splitNl cs).headD []) :: (splitNl cs).tail := by
  rw [splitNl, if_neg hc]
  rcases hm : splitNl cs with _ | ⟨l, ls⟩
  · exact absurd hm (splitNl_ne_nil cs)
  · simp

theorem splitNl_append (a b : Str) : splitNl (a ++ NL :: b) = splitNl a ++ splitNl b := by
  induction a with
  | nil =>
    rw [List.nil_append, splitNl_cons_nl]
    rfl
  | cons c cs ih =>
    by_cases hc : c = NL
    · subst hc
      rw [List.cons_append, splitNl_cons_nl, splitNl_cons_nl, ih, List.cons_append]
    · obtain ⟨l, ls, hm⟩ : ∃ l ls, splitNl cs = l :: ls := by
        rcases hx : splitNl cs with _ | ⟨l, ls⟩
        · exact absurd hx (splitNl_ne_nil cs)
        · exact ⟨l, ls, rfl⟩
      rw [List.cons_append, splitNl_cons_ne c _ hc, splitNl_cons_ne c cs hc, ih, hm]
      simp

theorem splitNl_no_nl (s : Str) (h : NL ∉ s) : splitNl s = [s] := by
  induction s with
  | nil => simp [splitNl]
  | cons c cs ih =>
    have hc : c ≠ NL := fun he => h (he ▸ List.mem_cons_self c cs)
    have hcs : NL ∉ cs := fun hm => h (List.mem_cons_of_mem c hm)
    rw [splitNl, if_neg hc, ih hcs]

theorem splitNl_joinSep (ls : List Str) (h : ls ≠ []) :
    splitNl (joinSep NL ls) = (ls.map splitNl).flatten := by
  induction ls with
  | nil => exact absurd rfl h
  | cons x t ih =>
    cases t with
    | nil => simp [joinSep]
    | cons y t2 =>
      rw [joinSep, splitNl_append, ih (by simp)]
      simp

theorem flatten_map_singleton (ls : List Str) (h : ∀ l ∈ ls, splitNl l = [l]) :
    (ls.map splitNl).flatten = ls := by
  induction ls with
  | nil => simp
  | cons x t ih =>
    rw [List.map_cons, List.flatten_cons, h x (List.mem_cons_self x t),
      ih fun l hl => h l (List.mem_cons_of_mem x hl)]
    rfl

theorem joinSep_mem {sep : Char} {ls : List Str} {c : Char} (hc : c ∈ joinSep sep ls) :
    c = sep ∨ ∃ l ∈ ls, c ∈ l := by
  induction ls with
  | nil => simp [joinSep] at hc
  | cons x t ih =>
    cases t with
    | nil =>
      rw [joinSep] at hc
      exact Or.inr ⟨x, List.mem_cons_self x [], hc⟩
    | cons y t2 =>
      rw [joinSep] at hc
      rcases List.mem_append.1 hc with h1 | h2
      · exact Or.inr ⟨x, List.mem_cons_self x _, h1⟩
      · rcases List.mem_cons.1 h2 with he | hm
        · exact Or.inl he
        · rcases ih hm with h | ⟨l, hl, hcl⟩
          · exact Or.inl h
          · exact Or.inr ⟨l, List.mem_cons_of_mem x hl, hcl⟩

theorem joinSep_length (sep : Char) (ls : List Str) (h : ls ≠ []) :
    (joinSep sep ls).length = (ls.map List.length).sum + (ls.length - 1) := by
  induction ls with
  | nil => exact absurd rfl h
  | cons x t ih =>
    cases t with
    | nil => simp [joinSep]
    | cons y t2 =>
      rw [joinSep]
      simp only [List.length_append, List.length_cons, ih (by simp), List.map_cons,
        List.sum_cons]
      simp only [List.map_cons, List.sum_cons] at ih ⊢
      omega

theorem padEnd_length (s : Str) (w : Nat) : (padEnd s w).length = max s.length w := by
  rw [padEnd, List.length_append, List.length_replicate]
  omega

theorem padStart_length (s : Str) (w : Nat) : (padStart s w).length = max s.length w := by
  rw [padStart, List.length_append, List.length_replicate]
  omega

theorem jsTrim_subset (s : Str) : ∀ ch ∈ jsTrim s, ch ∈ s := by
  intro ch hch
  rw [jsTrim, List.mem_reverse] at hch
  have hm1 : ch ∈ (s.dropWhile isJsWhitespace).reverse :=
    (List.dropWhile_sublist _).subset hch
  rw [List.mem_reverse] at hm1
  exact (List.dropWhile_sublist _).subset hm1

theorem jsTrim_length_le (s : Str) : (jsTrim s).length ≤ s.length := by
  rw [jsTrim, List.length_reverse]
  have h1 : (((s.dropWhile isJsWhitespace).reverse.dropWhile isJsWhitespace)).length ≤
      (s.dropWhile isJsWhitespace).reverse.length :=
    List.Sublist.length_le (List.dropWhile_sublist _)
  have h2 : (s.dropWhile isJsWhitespace).length ≤ s.length :=
    List.Sublist.length_le (List.dropWhile_sublist _)
  rw [List.length_reverse] at h1
  omega

theorem centerText_length (text : Str) (w : Nat) (h : (jsTrim text).length ≤ w) :
    (centerText text w).length = w := by
  rw [centerText, padEnd_length, List.length_append, List.length_replicate]
  omega

theorem getD_map_lt {α β : Type} (f : α → β) (l : List α) (i : Nat) (x : α) (y : β)
    (h : i < l.length) : (l.map f).getD i y = f (l.getD i x) := by
  rw [List.getD_eq_getElem?_getD, List.getElem?_map, List.getElem?_eq_getElem h,
    List.getD_eq_getElem?_getD, List.getElem?_eq_getElem h]
  rfl

theorem getD_mem_or {α : Type} (l : List α) (j : Nat) (d : α) :
    l.getD j d = d ∨ l.getD j d ∈ l := by
  by_cases hj : j < l.length
  · right
    rw [List.getD_eq_getElem?_getD, List.getElem?_eq_getElem hj]
    exact List.getElem_mem hj
  · left
    rw [List.getD_eq_getElem?_getD, List.getElem?_eq_none (by omega)]
    rfl

theorem mem_enum_facts {α : Type} (l : List α) (p : Nat × α) (hp : p ∈ l.enum) (d : α) :
    p.1 < l.length ∧ p.2 = l.getD p.1 d := by
  have h := List.mem_enum_iff_getElem?.1 hp
  have hlt : p.1 < l.length := by
    by_contra hge
    rw [List.getElem?_eq_none (by omega)] at h
    exact Option.noConfusion h
  refine ⟨hlt, ?_⟩
  rw [List.getD_eq_getElem?_getD, List.getElem?_eq_getElem hlt]
  rw [List.getElem?_eq_getElem hlt] at h
  exact (Option.some_injective _ h).symm

/-- Length of a single aligned cell: exactly the column width. -/
theorem alignCell_length (ha : HorizontalAlignment) (cell : Str) (w : Int)
    (h3 : 3 ≤ w) (hb : cell.length ≤ (w - 2).toNat) :
    (alignCell ha cell w).length = w.toNat := by
  have harith : (w - 2).toNat + 2 ≤ w.toNat := by omega
  cases ha with
  | left =>
    rw [alignCell, padEnd_length, List.length_cons]
    omega
  | right =>
    rw [alignCell, padStart_length, List.length_append, List.length_cons, List.length_nil]
    omega
  | middle =>
    rw [alignCell, centerText_length]
    have := jsTrim_length_le cell
    omega

/-- Length of one rendered row line: every alignment pads each cell to
exactly its column width, so the line is `sum of widths + columns + 1`
characters long. -/
theorem createRow_length (cells : List Str) (widths : List Int) (ha : HorizontalAlignment)
    (hwne : widths ≠ []) (h3 : ∀ w ∈ widths, 3 ≤ w)
    (hbound : ∀ p ∈ widths.enum, (cells.getD p.1 []).length ≤ (p.2 - 2).toNat) :
    (createRow cells widths ha).length = (widths.map Int.toNat).sum + widths.length + 1 := by
  have hpl : ∀ p ∈ widths.enum, (alignCell ha (cells.getD p.1 []) p.2).length = p.2.toNat := by
    intro p hp
    have h3p : 3 ≤ p.2 := by
      obtain ⟨h1, h2⟩ := mem_enum_facts widths p hp 0
      have : p.2 ∈ widths := h2 ▸ getD_mem widths p.1 h1
      exact h3 _ this
    exact alignCell_length ha _ p.2 h3p (hbound p hp)
  have hmapne : widths.enum.map (fun p => alignCell ha (cells.getD p.1 []) p.2) ≠ [] := by
    intro hmap
    have h0 : (widths.enum.map (fun p => alignCell ha (cells.getD p.1 []) p.2)).length = 0 := by
      rw [hmap]
      rfl
    rw [List.length_map, List.enum_length] at h0
    exact hwne (List.length_eq_zero.1 h0)
  rw [createRow, List.length_append, List.length_cons, List.length_cons, List.length_nil,
    joinSep_length _ _ hmapne, List.map_map]
  have hcong : widths.enum.map
      (List.length ∘ fun p => alignCell ha (cells.getD p.1 []) p.2) =
      widths.enum.map fun p : Nat × Int => p.2.toNat :=
    List.map_congr_left fun p hp => hpl p hp
  rw [hcong]
  have henum : widths.enum.map (fun p : Nat × Int => p.2.toNat) = widths.map Int.toNat := by
    rw [show (fun p : Nat × Int => p.2.toNat) = Int.toNat ∘ Prod.snd from rfl, ← List.map_map,
      List.enum_map_snd]
  rw [henum, List.length_map, List.enum_length]
  have hlen1 : 0 < widths.length := List.length_pos.2 hwne
  omega

theorem alignCell_no_nl (ha : HorizontalAlignment) (cell : Str) (w : Int)
    (h : NL ∉ cell) : NL ∉ alignCell ha cell w := by
  have hsp : (' ' : Char) ≠ NL := by decide
  cases ha with
  | left =>
    rw [alignCell, padEnd]
    intro hm
    rcases List.mem_append.1 hm with h1 | h2
    · rcases List.mem_cons.1 h1 with he | hm2
      · exact hsp he.symm
      · exact h hm2
    · exact hsp (List.eq_of_mem_replicate h2).symm
  | right =>
    rw [alignCell, padStart]
    intro hm
    rcases List.mem_append.1 hm with h1 | h2
    · exact hsp (List.eq_of_mem_replicate h1).symm
    · rcases List.mem_append.1 h2 with h3 | h4
      · exact h h3
      · exact hsp (List.mem_singleton.1 h4).symm
  | middle =>
    rw [alignCell, centerText, padEnd]
    intro hm
    rcases List.mem_append.1 hm with h1 | h2
    · rcases List.mem_append.1 h1 with h3 | h4
      · exact hsp (List.eq_of_mem_replicate h3).symm
      · exact h (jsTrim_subset cell NL h4)
    · exact hsp (List.eq_of_mem_replicate h2).symm

theorem createRow_no_nl (cells : List Str) (widths : List Int) (ha : HorizontalAlignment)
    (hnl : ∀ i : Nat, NL ∉ cells.getD i []) : NL ∉ createRow cells widths ha := by
  have hV : VERTICAL ≠ NL := by decide
  rw [createRow]
  intro hm
  rcases List.mem_append.1 hm with h1 | h2
  · rcases List.mem_cons.1 h1 with he | hm2
    · exact hV he.symm
    · rcases joinSep_mem hm2 with he | ⟨piece, hpiece, hinp⟩
      · exact hV he.symm
      · obtain ⟨p, hp, hpe⟩ := List.mem_map.1 hpiece
        exact alignCell_no_nl ha _ p.2 (hnl p.1) (hpe ▸ hinp)
  · exact hV (List.mem_singleton.1 h2).symm

/-- Shared shape of the three border lines: a corner, the joined
horizontal runs, a corner.  Every such line has the full table width and
no newline. -/
theorem borderLine_facts (c1 c2 c3 : Char) (widths : List Int) (hwne : widths ≠ [])
    (h1 : c1 ≠ NL) (h2 : c2 ≠ NL) (h3 : c3 ≠ NL) :
    (c1 :: joinSep c2 (widths.map hRepeat) ++ [c3]).length =
      (widths.map Int.toNat).sum + widths.length + 1 ∧
    NL ∉ (c1 :: joinSep c2 (widths.map hRepeat) ++ [c3]) := by
  have hH : HORIZONTAL ≠ NL := by decide
  have hmapne : widths.map hRepeat ≠ [] := by
    intro hmap
    have h0 : (widths.map hRepeat).length = 0 := by rw [hmap]; rfl
    rw [List.length_map] at h0
    exact hwne (List.length_eq_zero.1 h0)
  constructor
  · rw [List.length_append, List.length_cons, List.length_cons, List.length_nil,
      joinSep_length _ _ hmapne, List.map_map]
    have hcong : widths.map (List.length ∘ hRepeat) = widths.map Int.toNat :=
      List.map_congr_left fun w _ => by
        simp [Function.comp, hRepeat, List.length_replicate]
    rw [hcong, List.length_map]
    have hlen1 : 0 < widths.length := List.length_pos.2 hwne
    omega
  · intro hm
    rcases List.mem_append.1 hm with ha | hb
    · rcases List.mem_cons.1 ha with he | hm2
      · exact h1 he.symm
      · rcases joinSep_mem hm2 with he | ⟨piece, hpiece, hinp⟩
        · exact h2 he.symm
        · obtain ⟨w, hw, hpe⟩ := List.mem_map.1 hpiece
          rw [← hpe, hRepeat] at hinp
          exact hH (List.eq_of_mem_replicate hinp).symm
    · exact h3 (List.mem_singleton.1 hb).symm

theorem rowCells_length (row : List Str) (widths : List Int) :
    (rowCells row widths).length = widths.length := by
  simp [rowCells, List.enum_length]

theorem rowCells_getD (row : List Str) (widths : List Int) (i : Nat)
    (hi : i < widths.length) :
    (rowCells row widths).getD i [] =
      wrapCell ((widths.getD i 0 - 2).toNat) (row.getD i []) := by
  rw [rowCells, List.getD_eq_getElem?_getD, List.getElem?_map, List.getElem?_enum,
    List.getElem?_eq_getElem hi, List.getD_eq_getElem?_getD, List.getElem?_eq_getElem hi]
  rfl

theorem alignCells_length (va : VerticalAlignment) (H : Nat) (cells : List (List Str)) :
    (alignCells va H cells).length = cells.length := by
  rw [alignCells]
  by_cases hva : va = .top
  · rw [if_pos hva]
  · rw [if_neg hva, List.length_map]

theorem alignCells_getD (va : VerticalAlignment) (H : Nat) (cells : List (List Str))
    (i : Nat) (hi : i < cells.length) :
    (alignCells va H cells).getD i [] =
      List.replicate (vpadCount va H (cells.getD i []).length) ([] : Str) ++
        cells.getD i [] := by
  rw [alignCells]
  by_cases hva : va = .top
  · subst hva
    rw [if_pos rfl]
    simp [vpadCount]
  · rw [if_neg hva, getD_map_lt _ cells i [] [] hi]

theorem cellRowsOf_length (H : Nat) (cells : List (List Str)) :
    (cellRowsOf H cells).length = H := by
  simp [cellRowsOf]

theorem cellRowsOf_getD (H : Nat) (cells : List (List Str)) (j : Nat) (hj : j < H) :
    (cellRowsOf H cells).getD j [] = cells.map fun c => c.getD j [] := by
  rw [cellRowsOf, List.getD_eq_getElem?_getD, List.getElem?_map,
    List.getElem?_eq_getElem (by rw [List.length_range]; exact hj)]
  simp

theorem le_rowHeightOf {cells : List (List Str)} {c : List Str} (hc : c ∈ cells) :
    c.length ≤ rowHeightOf cells := by
  rw [rowHeightOf, ← List.foldl_map (f := List.length) (g := max)]
  exact mem_le_foldl_max (List.mem_map_of_mem List.length hc) 0

/-- What sits at position `(i, j)` of the aligned cell grid: either an
alignment-padding empty line or a chunk of the wrapped cell text. -/
theorem aligned_entry (row : List Str) (widths : List Int) (va : VerticalAlignment)
    (i j : Nat) (hi : i < widths.length) :
    ((alignCells va (rowHeightOf (rowCells row widths)) (rowCells row widths)).getD i
        []).getD j [] = [] ∨
      ((alignCells va (rowHeightOf (rowCells row widths)) (rowCells row widths)).getD i
        []).getD j [] ∈ wrapCell ((widths.getD i 0 - 2).toNat) (row.getD i []) := by
  have hi2 : i < (rowCells row widths).length := by rw [rowCells_length]; exact hi
  rw [alignCells_getD _ _ _ i hi2, rowCells_getD row widths i hi]
  rcases getD_mem_or (List.replicate (vpadCount va (rowHeightOf (rowCells row widths))
      (wrapCell ((widths.getD i 0 - 2).toNat) (row.getD i [])).length) ([] : Str) ++
      wrapCell ((widths.getD i 0 - 2).toNat) (row.getD i [])) j [] with h | h
  · exact Or.inl h
  · rcases List.mem_append.1 h with h1 | h2
    · exact Or.inl (List.eq_of_mem_replicate h1)
    · exact Or.inr h2

/-- Every physical line of one logical row has the full table width and
contains no newline. -/
theorem rowLines_facts (row : List Str) (widths : List Int) (ha : HorizontalAlignment)
    (va : VerticalAlignment) (hwne : widths ≠ []) (h3 : ∀ w ∈ widths, 3 ≤ w)
    (hnl : ∀ i : Nat, NL ∉ row.getD i []) :
    ∀ l ∈ rowLines row widths ha va,
      l.length = (widths.map Int.toNat).sum + widths.length + 1 ∧ NL ∉ l := by
  intro l hl
  rw [rowLines] at hl
  obtain ⟨r, hr, hle⟩ := List.mem_map.1 hl
  obtain ⟨j, hj, hre⟩ := List.mem_map.1 hr
  have hlenal : (alignCells va (rowHeightOf (rowCells row widths))
      (rowCells row widths)).length = widths.length := by
    rw [alignCells_length, rowCells_length]
  have hrget : ∀ i : Nat, i < widths.length → r.getD i [] =
      ((alignCells va (rowHeightOf (rowCells row widths))
        (rowCells row widths)).getD i []).getD j [] := by
    intro i hi
    rw [← hre, getD_map_lt _ _ i [] [] (by rw [hlenal]; exact hi)]
  have hrlen : r.length = widths.length := by
    rw [← hre, List.length_map, hlenal]
  have hbound : ∀ p ∈ widths.enum, (r.getD p.1 []).length ≤ (p.2 - 2).toNat := by
    intro p hp
    obtain ⟨hp1, hp2⟩ := mem_enum_facts widths p hp 0
    rw [hrget p.1 hp1]
    rcases aligned_entry row widths va p.1 j hp1 with h | h
    · rw [h]
      simp
    · have h3p : 3 ≤ widths.getD p.1 0 := h3 _ (getD_mem widths p.1 hp1)
      have hw0 : (widths.getD p.1 0 - 2).toNat ≠ 0 := by omega
      obtain ⟨-, hmem⟩ := wrapCell_props _ hw0 (row.getD p.1 [])
      obtain ⟨hlen, -, -⟩ := hmem _ h
      rw [hp2]
      exact hlen
  have hnl2 : ∀ i : Nat, NL ∉ r.getD i [] := by
    intro i
    by_cases hi : i < widths.length
    · rw [hrget i hi]
      rcases aligned_entry row widths va i j hi with h | h
      · rw [h]
        simp
      · have h3p : 3 ≤ widths.getD i 0 := h3 _ (getD_mem widths i hi)
        have hw0 : (widths.getD i 0 - 2).toNat ≠ 0 := by omega
        obtain ⟨-, hmem⟩ := wrapCell_props _ hw0 (row.getD i [])
        obtain ⟨-, -, hsub⟩ := hmem _ h
        exact fun hin => hnl i (hsub NL hin)
    · rw [List.getD_eq_getElem?_getD, List.getElem?_eq_none (by omega : r.length ≤ i)]
      simp
  subst hle
  exact ⟨createRow_length r widths ha hwne h3 hbound, createRow_no_nl r widths ha hnl2⟩

theorem rowLines_length (row : List Str) (widths : List Int) (ha : HorizontalAlignment)
    (va : VerticalAlignment) :
    (rowLines row widths ha va).length = rowHeightOf (rowCells row widths) := by
  rw [rowLines, List.length_map, cellRowsOf_length]

/-- A row with some nonempty cell (within the column range) has height
at least 1. -/
theorem rowHeightOf_pos (row : List Str) (widths : List Int)
    (h3 : ∀ w ∈ widths, 3 ≤ w)
    (hne : ∃ i, i < widths.length ∧ row.getD i [] ≠ []) :
    0 < rowHeightOf (rowCells row widths) := by
  obtain ⟨i, hi, hnei⟩ := hne
  have h3p : 3 ≤ widths.getD i 0 := h3 _ (getD_mem widths i hi)
  have hw0 : (widths.getD i 0 - 2).toNat ≠ 0 := by omega
  have hwne := wrapCell_ne_nil _ hw0 _ hnei
  have hmem : wrapCell ((widths.getD i 0 - 2).toNat) (row.getD i []) ∈ rowCells row widths := by
    rw [← rowCells_getD row widths i hi]
    rcases getD_mem_or (rowCells row widths) i [] with h | h
    · rw [rowCells_getD row widths i hi] at h
      exact absurd h hwne
    · exact h
  have := le_rowHeightOf hmem
  have hpos : 0 < (wrapCell ((widths.getD i 0 - 2).toNat) (row.getD i [])).length :=
    List.length_pos.2 hwne
  omega

/-- Splitting one rendered logical row on newlines recovers exactly its
physical lines. -/
theorem multiline_splitNl (row : List Str) (widths : List Int) (ha : HorizontalAlignment)
    (va : VerticalAlignment) (hwne : widths ≠ []) (h3 : ∀ w ∈ widths, 3 ≤ w)
    (hnl : ∀ i : Nat, NL ∉ row.getD i [])
    (hne : ∃ i, i < widths.length ∧ row.getD i [] ≠ []) :
    splitNl (createMultiLineRows row widths ha va) = rowLines row widths ha va := by
  have hlne : rowLines row widths ha va ≠ [] := by
    intro h0
    have := rowLines_length row widths ha va
    rw [h0] at this
    have hpos := rowHeightOf_pos row widths h3 hne
    simp at this
    omega
  rw [createMultiLineRows, splitNl_joinSep _ hlne]
  exact flatten_map_singleton _ fun l hl =>
    splitNl_no_nl l (rowLines_facts row widths ha va hwne h3 hnl l hl).2

/-- Every line of the rendered table (split on newlines) has exactly the
full table width, provided the table has at least one data row and every
row (names row included) has some nonempty cell and no embedded
newlines. -/
theorem renderTable_line_length (names : List Str) (content : List (List Str))
    (widths : List Int) (ha : HorizontalAlignment) (va : VerticalAlignment)
    (hwne : widths ≠ []) (h3 : ∀ w ∈ widths, 3 ≤ w)
    (hnlN : ∀ i : Nat, NL ∉ names.getD i [])
    (hneN : ∃ i, i < widths.length ∧ names.getD i [] ≠ [])
    (hcne : content ≠ [])
    (hnlC : ∀ row ∈ content, ∀ i : Nat, NL ∉ row.getD i [])
    (hneC : ∀ row ∈ content, ∃ i, i < widths.length ∧ row.getD i [] ≠ []) :
    ∀ l ∈ splitNl (renderTable names content widths ha va),
      l.length = (widths.map Int.toNat).sum + widths.length + 1 := by
  have hNL1 : TOP_LEFT ≠ NL := by decide
  have hNL2 : TOP_MIDDLE ≠ NL := by decide
  have hNL3 : TOP_RIGHT ≠ NL := by decide
  have hNL4 : LEFT_MIDDLE ≠ NL := by decide
  have hNL5 : MIDDLE ≠ NL := by decide
  have hNL6 : RIGHT_MIDDLE ≠ NL := by decide
  have hNL7 : BOTTOM_LEFT ≠ NL := by decide
  have hNL8 : BOTTOM_MIDDLE ≠ NL := by decide
  have hNL9 : BOTTOM_RIGHT ≠ NL := by decide
  obtain ⟨htoplen, htopnl⟩ := borderLine_facts TOP_LEFT TOP_MIDDLE TOP_RIGHT widths hwne
    hNL1 hNL2 hNL3
  obtain ⟨hmidlen, hmidnl⟩ := borderLine_facts LEFT_MIDDLE MIDDLE RIGHT_MIDDLE widths hwne
    hNL4 hNL5 hNL6
  obtain ⟨hbotlen, hbotnl⟩ := borderLine_facts BOTTOM_LEFT BOTTOM_MIDDLE BOTTOM_RIGHT widths
    hwne hNL7 hNL8 hNL9
  have htop_eq : createTableTop widths =
      TOP_LEFT :: joinSep TOP_MIDDLE (widths.map hRepeat) ++ [TOP_RIGHT] := rfl
  have hmid_eq : createTableMiddleLine widths =
      LEFT_MIDDLE :: joinSep MIDDLE (widths.map hRepeat) ++ [RIGHT_MIDDLE] := rfl
  have hbot_eq : createTableBottom widths =
      BOTTOM_LEFT :: joinSep BOTTOM_MIDDLE (widths.map hRepeat) ++ [BOTTOM_RIGHT] := rfl
  rw [← htop_eq] at htoplen htopnl
  rw [← hmid_eq] at hmidlen hmidnl
  rw [← hbot_eq] at hbotlen hbotnl
  have hjoin : renderTable names content widths ha va =
      createTableTop widths ++ NL ::
        (createTableColumnNames names widths ha va ++ NL ::
          (createTableRows content widths ha va ++ NL :: createTableBottom widths)) := rfl
  have hsplit : splitNl (renderTable names content widths ha va) =
      splitNl (createTableTop widths) ++
        (splitNl (createTableColumnNames names widths ha va) ++
          (splitNl (createTableRows content widths ha va) ++
            splitNl (createTableBottom widths))) := by
    rw [hjoin, splitNl_append, splitNl_append, splitNl_append]
  have hstop : splitNl (createTableTop widths) = [createTableTop widths] :=
    splitNl_no_nl _ htopnl
  have hsbot : splitNl (createTableBottom widths) = [createTableBottom widths] :=
    splitNl_no_nl _ hbotnl
  have hshead : splitNl (createTableColumnNames names widths ha va) =
      rowLines names widths ha va ++ [createTableMiddleLine widths] := by
    rw [createTableColumnNames, splitNl_append,
      multiline_splitNl names widths ha va hwne h3 hnlN hneN, splitNl_no_nl _ hmidnl]
  have hsrows : splitNl (createTableRows content widths ha va) =
      (content.map fun row => rowLines row widths ha va).flatten := by
    have hmapne : content.map
        (fun row => createMultiLineRows row widths ha va) ≠ [] := by
      intro hmap
      have h0 : (content.map fun row => createMultiLineRows row widths ha va).length = 0 := by
        rw [hmap]
        rfl
      rw [List.length_map] at h0
      exact hcne (List.length_eq_zero.1 h0)
    rw [createTableRows, splitNl_joinSep _ hmapne, List.map_map]
    congr 1
    refine List.map_congr_left fun row hrow => ?_
    exact multiline_splitNl row widths ha va hwne h3 (hnlC row hrow) (hneC row hrow)
  intro l hl
  rw [hsplit, hstop, hshead, hsrows, hsbot] at hl
  rcases List.mem_append.1 hl with h1 | h2
  · rw [List.mem_singleton.1 h1]
    exact htoplen
  · rcases List.mem_append.1 h2 with h3a | h4
    · rcases List.mem_append.1 h3a with h5 | h6
      · exact (rowLines_facts names widths ha va hwne h3 hnlN l h5).1
      · rw [List.mem_singleton.1 h6]
        exact hmidlen
    · rcases List.mem_append.1 h4 with h7 | h8
      · obtain ⟨block, hblock, hlb⟩ := List.mem_flatten.1 h7
        obtain ⟨row, hrow, hbe⟩ := List.mem_map.1 hblock
        rw [← hbe] at hlb
        exact (rowLines_facts row widths ha va hwne h3 (hnlC row hrow) l hlb).1
      · rw [List.mem_singleton.1 h8]
        exact hbotlen

/-! ### Dissection of `createTable` and glue lemmas -/

/-- `createTable` unfolded into its three outcomes. -/
theorem createTable_eq (names : List Str) (content : List (List Str)) (o : TableOptions) :
    createTable names content o =
      if o.maxWidth < 4 * (columnCountFull names o.indexColumn : Int) + 1 then
        if o.throwIfTooSmall then
          TableResult.tooSmallError
            (tooSmallMessageFor (columnCountFull names o.indexColumn) o.maxWidth)
        else
          TableResult.tooSmallMessage
            (tooSmallMessageFor (columnCountFull names o.indexColumn) o.maxWidth)
      else if (finalWidths names content o).any fun w => w < 3 then
        TableResult.internalError
      else
        TableResult.table (renderTable (columnNamesFull names o.indexColumn)
          (tableContentFull content o.indexColumn) (finalWidths names content o)
          o.horizontalAlignment o.verticalAlignment) := rfl

theorem columnNamesFull_length (names : List Str) (ic : Bool) :
    (columnNamesFull names ic).length = columnCountFull names ic := by
  cases ic <;> simp [columnNamesFull, columnCountFull]

/-- A successful call implies feasibility, a passed post-check, and that
the output is the rendered table over the solved widths. -/
theorem createTable_table_inv (names : List Str) (content : List (List Str))
    (o : TableOptions) (s : Str) (hs : createTable names content o = .table s) :
    4 * (columnCountFull names o.indexColumn : Int) + 1 ≤ o.maxWidth ∧
    (∀ w ∈ finalWidths names content o, 3 ≤ w) ∧
    s = renderTable (columnNamesFull names o.indexColumn)
      (tableContentFull content o.indexColumn) (finalWidths names content o)
      o.horizontalAlignment o.verticalAlignment := by
  rw [createTable_eq] at hs
  by_cases h1 : o.maxWidth < 4 * (columnCountFull names o.indexColumn : Int) + 1
  · rw [if_pos h1] at hs
    by_cases h2 : o.throwIfTooSmall <;> simp [h2] at hs
  · rw [if_neg h1] at hs
    by_cases h2 : (finalWidths names content o).any fun w => w < 3
    · rw [if_pos h2] at hs
      exact absurd hs (by simp)
    · rw [if_neg h2] at hs
      refine ⟨not_lt.1 h1, ?_, by injection hs.symm⟩
      intro w hw
      by_contra hlt
      exact h2 (List.any_eq_true.2 ⟨w, hw, by simp; omega⟩)

theorem finalWidths_length (names : List Str) (content : List (List Str)) (o : TableOptions)
    (hA : 0 ≤ availableWidth (columnCountFull names o.indexColumn) o.maxWidth) :
    (finalWidths names content o).length = columnCountFull names o.indexColumn := by
  rw [finalWidths]
  exact (solvedWidths_len_sum _ _ o
    (by rw [naturalWidths_length, columnNamesFull_length]) hA).1

/-- C1: with `columnCount` counting the optional index column, a call
with `maxWidth < 4 * columnCount + 1` fails before any layout — it
throws the feasibility error when `throwIfTooSmall` is set and otherwise
returns the same message as the result string, and that message names
the required minimum `4 * columnCount + 1` and the received `maxWidth`;
with `maxWidth ≥ 4 * columnCount + 1` this infeasible-width failure
never occurs. -/
theorem claim_C1 (names : List Str) (content : List (List Str)) (o : TableOptions) :
    (o.maxWidth < 4 * (columnCountFull names o.indexColumn : Int) + 1 →
      createTable names content o =
        (if o.throwIfTooSmall then
          TableResult.tooSmallError
            (tooSmallMessageFor (columnCountFull names o.indexColumn) o.maxWidth)
        else
          TableResult.tooSmallMessage
            (tooSmallMessageFor (columnCountFull names o.indexColumn) o.maxWidth)) ∧
      tooSmallMessageFor (columnCountFull names o.indexColumn) o.maxWidth =
        "The table does not fit. The width should be set to at least ".data
          ++ intStr (4 * (columnCountFull names o.indexColumn : Int) + 1)
          ++ " (4 * ColumnCount + 1) for this table to fit (received width ".data
          ++ intStr o.maxWidth
          ++ ").".data) ∧
    (4 * (columnCountFull names o.indexColumn : Int) + 1 ≤ o.maxWidth →
      (∀ m, createTable names content o ≠ .tooSmallError m) ∧
      (∀ m, createTable names content o ≠ .tooSmallMessage m)) := by
  constructor
  · intro h
    rw [createTable_eq, if_pos h]
    exact ⟨rfl, rfl⟩
  · intro h
    rw [createTable_eq, if_neg (not_lt.2 h)]
    by_cases h2 : (finalWidths names content o).any fun w => w < 3
    · rw [if_pos h2]
      exact ⟨fun m => by simp, fun m => by simp⟩
    · rw [if_neg h2]
      exact ⟨fun m => by simp, fun m => by simp⟩

/-- Witness for C1 at a concrete input (one column, width 3 < 5). -/
theorem claim_C1_witness :
    createTable [['a']] [] { optsBase with maxWidth := 3 } =
      .tooSmallError (tooSmallMessageFor 1 3) ∧
    tooSmallMessageFor 1 3 =
      "The table does not fit. The width should be set to at least ".data
        ++ intStr 5
        ++ " (4 * ColumnCount + 1) for this table to fit (received width ".data
        ++ intStr 3
        ++ ").".data := by
  have h := (claim_C1 [['a']] [] { optsBase with maxWidth := 3 }).1 (by decide)
  exact ⟨by rw [h.1]; rfl, h.2⟩

/-- C2 (amended): for every call that returns a table, the final widths
satisfy `sum + columnCount + 1 ≤ maxWidth`; and under `fullWidth` the
equality holds provided that, whenever the sizing stage leaves the table
under budget, some column is strictly below the average width (otherwise
the grow step finds no small column and leaves the table short). -/
theorem claim_C2_amended (names : List Str) (content : List (List Str)) (o : TableOptions)
    (s : Str) (hs : createTable names content o = .table s) :
    (finalWidths names content o).sum + (columnCountFull names o.indexColumn : Int) + 1 ≤
      o.maxWidth ∧
    (o.fullWidth = true →
      ((sizedWidths (columnCountFull names o.indexColumn)
          (naturalWidths (columnNamesFull names o.indexColumn)
            (tableContentFull content o.indexColumn)) o).2 < 0 →
        smallColumnIndices (sizedWidths (columnCountFull names o.indexColumn)
          (naturalWidths (columnNamesFull names o.indexColumn)
            (tableContentFull content o.indexColumn)) o).1
          (averageWidth (columnCountFull names o.indexColumn) o.maxWidth) ≠ []) →
      (finalWidths names content o).sum + (columnCountFull names o.indexColumn : Int) + 1 =
        o.maxWidth) := by
  obtain ⟨hfeas, -, -⟩ := createTable_table_inv names content o s hs
  have hcc0 : (0 : Int) ≤ (columnCountFull names o.indexColumn : Int) := by positivity
  have hA : 0 ≤ availableWidth (columnCountFull names o.indexColumn) o.maxWidth := by
    rw [availableWidth]
    linarith
  have hlen : (naturalWidths (columnNamesFull names o.indexColumn)
      (tableContentFull content o.indexColumn)).length = columnCountFull names o.indexColumn := by
    rw [naturalWidths_length, columnNamesFull_length]
  constructor
  · have hle := (solvedWidths_len_sum (columnCountFull names o.indexColumn) _ o hlen hA).2
    rw [availableWidth] at hle
    rw [finalWidths]
    linarith
  · intro hfw hsm
    have heq := solvedWidths_sum_eq_of_full (columnCountFull names o.indexColumn) _ o hlen hA
      hfw hsm
    rw [availableWidth] at heq
    rw [finalWidths]
    linarith

/-- Counterexample to C2 as stated: a feasible fullWidth call that
returns a table yet fills strictly less than `maxWidth` (no column is
below the average, so the grow step does nothing). -/
theorem claim_C2_counterexample :
    (createTable namesC2 [] optsC2).isTable = true ∧
    optsC2.fullWidth = true ∧
    4 * (columnCountFull namesC2 optsC2.indexColumn : Int) + 1 ≤ optsC2.maxWidth ∧
    (finalWidths namesC2 [] optsC2).sum +
      (columnCountFull namesC2 optsC2.indexColumn : Int) + 1 ≠ optsC2.maxWidth := by
  decide

/-- Witness for the amended C2 at a concrete input. -/
theorem claim_C2_amended_witness :
    (finalWidths namesC2w [] optsC2w).sum +
      (columnCountFull namesC2w optsC2w.indexColumn : Int) + 1 ≤ optsC2w.maxWidth ∧
    (finalWidths namesC2w [] optsC2w).sum +
      (columnCountFull namesC2w optsC2w.indexColumn : Int) + 1 = optsC2w.maxWidth := by
  have h := claim_C2_amended namesC2w [] optsC2w
    ((createTable namesC2w [] optsC2w).tableStr) (by decide)
  exact ⟨h.1, h.2 (by decide) (by decide)⟩

theorem sum_toNat_eq (ws : List Int) (h : ∀ w ∈ ws, 0 ≤ w) :
    ((ws.map Int.toNat).sum : Int) = ws.sum := by
  induction ws with
  | nil => simp
  | cons w t ih =>
    have hw := h w (List.mem_cons_self w t)
    have ht := ih fun x hx => h x (List.mem_cons_of_mem w hx)
    simp only [List.map_cons, List.sum_cons, Nat.cast_add]
    rw [ht, Int.toNat_of_nonneg hw]

theorem mem_getD_exists {α : Type} (l : List α) (x : α) (hx : x ∈ l) (d : α) :
    ∃ i, i < l.length ∧ l.getD i d = x := by
  obtain ⟨i, hi, he⟩ := List.mem_iff_getElem.1 hx
  refine ⟨i, hi, ?_⟩
  rw [List.getD_eq_getElem?_getD, List.getElem?_eq_getElem hi]
  exact he

theorem wrapCell_getD_aux (w : Nat) (hw : w ≠ 0) :
    ∀ n (s : Str), s.length ≤ n → ∀ i, i < (wrapCell w s).length →
      (wrapCell w s).getD i [] = (s.drop (i * w)).take w := by
  intro n
  induction n with
  | zero =>
    intro s hs i hi
    have hnil : s = [] := List.eq_nil_of_length_eq_zero (Nat.le_zero.1 hs)
    subst hnil
    rw [wrapCell_nil] at hi
    simp at hi
  | succ n ih =>
    intro s hs i hi
    by_cases hse : s = []
    · subst hse
      rw [wrapCell_nil] at hi
      simp at hi
    · rw [wrapCell_eq, if_neg hse, if_neg hw] at hi ⊢
      cases i with
      | zero => simp
      | succ j =>
        rw [List.getD_cons_succ]
        have hlen : 0 < s.length := List.length_pos.2 hse
        have hdn : (s.drop w).length ≤ n := by
          rw [List.length_drop]
          omega
        have hj : j < (wrapCell w (s.drop w)).length := by
          rw [List.length_cons] at hi
          omega
        rw [ih (s.drop w) hdn j hj, List.drop_drop]
        congr 2
        ring

/-- C3 (amended): for `innerWidth ≥ 1` the wrapper slices the text into
the consecutive `innerWidth`-sized pieces in left-to-right order until
exhausted (chunk `i` is exactly characters `i*w` through `i*w + w - 1`,
and the chunks concatenate back to the text), every chunk is at most
`innerWidth` long, a nonempty text yields at least one chunk — but the
empty text yields the EMPTY sequence, not `[""]` (the `while` guard
fails immediately), so a row whose cells are all empty has rendered
height 0. -/
theorem claim_C3_amended (w : Nat) (hw : 1 ≤ w) (s : Str) :
    (wrapCell w s).flatten = s ∧
    (∀ c ∈ wrapCell w s, c.length ≤ w) ∧
    (∀ i, i < (wrapCell w s).length → (wrapCell w s).getD i [] = (s.drop (i * w)).take w) ∧
    (s ≠ [] → wrapCell w s ≠ []) ∧
    wrapCell w [] = [] := by
  obtain ⟨hf, hm⟩ := wrapCell_props w (by omega) s
  exact ⟨hf, fun c hc => (hm c hc).1,
    wrapCell_getD_aux w (by omega) s.length s (le_refl _),
    fun hs => wrapCell_ne_nil w (by omega) s hs, wrapCell_nil w⟩

/-- Counterexample to C3 as stated: the empty text wraps to the empty
sequence, not to a one-element sequence holding the empty string. -/
theorem claim_C3_counterexample : wrapCell 1 [] = [] ∧ wrapCell 1 [] ≠ [[]] := by
  decide

/-- Witness for the amended C3 at a concrete input. -/
theorem claim_C3_amended_witness :
    (wrapCell 2 "abcde".data).flatten = "abcde".data ∧
    ((wrapCell 2 "abcde".data).getD 1 []).length ≤ 2 ∧
    (wrapCell 2 "abcde".data).getD 1 [] = ("abcde".data.drop (1 * 2)).take 2 ∧
    wrapCell 2 "abcde".data ≠ [] ∧
    wrapCell 2 [] = [] := by
  obtain ⟨h1, h2, h3, h4, h5⟩ := claim_C3_amended 2 (by decide) "abcde".data
  exact ⟨h1, h2 _ (by decide), h3 1 (by decide), h4 (by decide), h5⟩

/-- C4 (amended): every successful output consists of physical lines of
the identical length `1 + sum(final widths) + columnCount ≤ maxWidth`,
provided there is at least one data row, no cell or name embeds a
newline, and every row (the header too, after the optional index
column) has a nonempty cell within the column range. -/
theorem claim_C4_amended (names : List Str) (content : List (List Str)) (o : TableOptions)
    (s : Str) (hs : createTable names content o = .table s)
    (hcne : tableContentFull content o.indexColumn ≠ [])
    (hnlN : ∀ name ∈ columnNamesFull names o.indexColumn, NL ∉ name)
    (hnlC : ∀ row ∈ tableContentFull content o.indexColumn, ∀ c ∈ row, NL ∉ c)
    (hneN : ∃ name ∈ columnNamesFull names o.indexColumn, name ≠ [])
    (hrowlen : ∀ row ∈ tableContentFull content o.indexColumn,
      row.length = columnCountFull names o.indexColumn)
    (hneC : ∀ row ∈ tableContentFull content o.indexColumn, ∃ c ∈ row, c ≠ []) :
    ∀ l ∈ splitNl s,
      (l.length : Int) =
        1 + (finalWidths names content o).sum + (columnCountFull names o.indexColumn : Int) ∧
      1 + (finalWidths names content o).sum + (columnCountFull names o.indexColumn : Int) ≤
        o.maxWidth := by
  obtain ⟨hfeas, h3, hrender⟩ := createTable_table_inv names content o s hs
  have hcc0 : (0 : Int) ≤ (columnCountFull names o.indexColumn : Int) := by positivity
  have hA : 0 ≤ availableWidth (columnCountFull names o.indexColumn) o.maxWidth := by
    rw [availableWidth]
    linarith
  have hlenW : (finalWidths names content o).length = columnCountFull names o.indexColumn :=
    finalWidths_length names content o hA
  have hlenN : (columnNamesFull names o.indexColumn).length =
      columnCountFull names o.indexColumn := columnNamesFull_length names o.indexColumn
  have hwne : finalWidths names content o ≠ [] := by
    intro h0
    obtain ⟨name, hname, hnamene⟩ := hneN
    have hlz : (columnNamesFull names o.indexColumn).length = 0 := by
      rw [hlenN, ← hlenW, h0]
      rfl
    rw [List.length_eq_zero.1 hlz] at hname
    exact absurd hname (List.not_mem_nil name)
  have hnlN2 : ∀ i : Nat, NL ∉ (columnNamesFull names o.indexColumn).getD i [] := by
    intro i
    rcases getD_mem_or (columnNamesFull names o.indexColumn) i [] with h | h
    · rw [h]
      simp
    · exact hnlN _ h
  have hneN2 : ∃ i, i < (finalWidths names content o).length ∧
      (columnNamesFull names o.indexColumn).getD i [] ≠ [] := by
    obtain ⟨name, hname, hnamene⟩ := hneN
    obtain ⟨i, hi, he⟩ := mem_getD_exists _ name hname []
    exact ⟨i, by rw [hlenW, ← hlenN]; exact hi, by rw [he]; exact hnamene⟩
  have hnlC2 : ∀ row ∈ tableContentFull content o.indexColumn, ∀ i : Nat,
      NL ∉ row.getD i [] := by
    intro row hrow i
    rcases getD_mem_or row i [] with h | h
    · rw [h]
      simp
    · exact hnlC row hrow _ h
  have hneC2 : ∀ row ∈ tableContentFull content o.indexColumn,
      ∃ i, i < (finalWidths names content o).length ∧ row.getD i [] ≠ [] := by
    intro row hrow
    obtain ⟨c, hc, hcne2⟩ := hneC row hrow
    obtain ⟨i, hi, he⟩ := mem_getD_exists row c hc []
    exact ⟨i, by rw [hlenW, ← hrowlen row hrow]; exact hi, by rw [he]; exact hcne2⟩
  have hlines := renderTable_line_length (columnNamesFull names o.indexColumn)
    (tableContentFull content o.indexColumn) (finalWidths names content o)
    o.horizontalAlignment o.verticalAlignment hwne h3 hnlN2 hneN2 hcne hnlC2 hneC2
  have hsum : (((finalWidths names content o).map Int.toNat).sum : Int) =
      (finalWidths names content o).sum :=
    sum_toNat_eq _ fun w hw => le_trans (by omega) (h3 w hw)
  have hbudget : (finalWidths names content o).sum ≤
      availableWidth (columnCountFull names o.indexColumn) o.maxWidth := by
    rw [finalWidths]
    exact (solvedWidths_len_sum _ _ o
      (by rw [naturalWidths_length, columnNamesFull_length]) hA).2
  rw [availableWidth] at hbudget
  intro l hl
  rw [hrender] at hl
  have hll := hlines l hl
  constructor
  · rw [hll, Nat.cast_add, Nat.cast_add, Nat.cast_one, hsum, hlenW]
    ring
  · linarith

/-- Counterexample to C4 as stated: a successful call (single empty key
name, one data row) whose output contains a zero-length physical line —
the all-empty header row renders as the empty string, so the lines do
not all have the same length. -/
theorem claim_C4_counterexample :
    (createTable [[]] [[['5']]] optsBase).isTable = true ∧
    ¬ (∀ l ∈ splitNl ((createTable [[]] [[['5']]] optsBase).tableStr),
        (l.length : Int) =
          1 + (finalWidths [[]] [[['5']]] optsBase).sum +
            (columnCountFull [[]] optsBase.indexColumn : Int)) := by
  constructor
  · decide
  · intro hall
    have h0 : ([] : Str) ∈ splitNl ((createTable [[]] [[['5']]] optsBase).tableStr) := by
      decide
    have hz := hall [] h0
    revert hz
    decide

/-- Witness for the amended C4 at a concrete input (checked on the
first physical line of the rendered table). -/
theorem claim_C4_amended_witness :
    (((splitNl ((createTable namesC4w contentC4w optsBase).tableStr)).headD []).length : Int) =
      1 + (finalWidths namesC4w contentC4w optsBase).sum +
        (columnCountFull namesC4w optsBase.indexColumn : Int) ∧
    1 + (finalWidths namesC4w contentC4w optsBase).sum +
      (columnCountFull namesC4w optsBase.indexColumn : Int) ≤ optsBase.maxWidth :=
  claim_C4_amended namesC4w contentC4w optsBase
    ((createTable namesC4w contentC4w optsBase).tableStr) (by decide) (by decide)
    (by decide) (by decide) (by decide) (by decide) (by decide)
    ((splitNl ((createTable namesC4w contentC4w optsBase).tableStr)).headD []) (by decide)

/-- C5: the shrink step.  Whenever the natural widths exceed the budget
`maxWidth - columnCount - 1`, with `averageWidth = floor(budget /
columnCount)` and the big columns those strictly wider than the average:
the shrink factor is `1 - overflow / (sum(big) - count(big) * average)`,
every big column except the last is set to `max(average,
floor(shrinkFactor * width))` (the running overflow decreasing by the
amount actually removed), the last big column has the entire remaining
overflow subtracted with no clamp, and non-big columns are unchanged. -/
theorem claim_C5 (natW : List Int) (cc : Nat) (maxWidth : Int)
    (hlen : natW.length = cc) (hcc : 0 < cc)
    (hA : 0 ≤ availableWidth cc maxWidth)
    (hover : availableWidth cc maxWidth < natW.sum) :
    bigColumnIndices natW (averageWidth cc maxWidth) ≠ [] ∧
    shrinkFactorOf natW (averageWidth cc maxWidth)
        (natW.sum - availableWidth cc maxWidth) =
      1 - ((natW.sum - availableWidth cc maxWidth : Int) : ℚ) /
        ((bigSum natW (averageWidth cc maxWidth) : ℚ) -
          ((bigColumnIndices natW (averageWidth cc maxWidth)).length : ℚ) *
            ((averageWidth cc maxWidth : Int) : ℚ)) ∧
    (∀ j, j ∉ bigColumnIndices natW (averageWidth cc maxWidth) →
      (shrinkColumns natW (averageWidth cc maxWidth)
        (natW.sum - availableWidth cc maxWidth)).getD j 0 = natW.getD j 0) ∧
    (∀ j ∈ (bigColumnIndices natW (averageWidth cc maxWidth)).dropLast,
      (shrinkColumns natW (averageWidth cc maxWidth)
        (natW.sum - availableWidth cc maxWidth)).getD j 0 =
      max (averageWidth cc maxWidth)
        ⌊shrinkFactorOf natW (averageWidth cc maxWidth)
            (natW.sum - availableWidth cc maxWidth) * ((natW.getD j 0 : Int) : ℚ)⌋) ∧
    (∀ h : bigColumnIndices natW (averageWidth cc maxWidth) ≠ [],
      (shrinkColumns natW (averageWidth cc maxWidth)
        (natW.sum - availableWidth cc maxWidth)).getD
          ((bigColumnIndices natW (averageWidth cc maxWidth)).getLast h) 0 =
      natW.getD ((bigColumnIndices natW (averageWidth cc maxWidth)).getLast h) 0 -
        ((natW.sum - availableWidth cc maxWidth) -
          ((bigColumnIndices natW (averageWidth cc maxWidth)).dropLast.map fun i =>
            natW.getD i 0 -
              max (averageWidth cc maxWidth)
                ⌊shrinkFactorOf natW (averageWidth cc maxWidth)
                    (natW.sum - availableWidth cc maxWidth) *
                  ((natW.getD i 0 : Int) : ℚ)⌋).sum)) := by
  have hmul := averageWidth_mul_le cc maxWidth hcc hA
  have hbig : bigColumnIndices natW (averageWidth cc maxWidth) ≠ [] :=
    bigColumnIndices_ne_nil_of_overflow natW _ (availableWidth cc maxWidth)
      (by rw [hlen]; exact hmul) hover
  obtain ⟨-, cout, cin, clast, -⟩ :=
    shrinkColumns_char natW (averageWidth cc maxWidth)
      (natW.sum - availableWidth cc maxWidth) hbig
  refine ⟨hbig, rfl, cout, ?_, ?_⟩
  · intro j hj
    exact cin j hj
  · intro h
    exact clast

/-- Witness for C5 at a concrete input: natural widths `[32, 4, 12]`,
three columns, `maxWidth = 30` (budget 26, average 8, overflow 22, big
columns 0 and 2 with the last big column at index 2, shrink factor
`3/14`). -/
theorem claim_C5_witness :
    bigColumnIndices [32, 4, 12] (averageWidth 3 30) ≠ [] ∧
    (shrinkColumns [32, 4, 12] (averageWidth 3 30)
      (([32, 4, 12] : List Int).sum - availableWidth 3 30)).getD 1 0 =
      ([32, 4, 12] : List Int).getD 1 0 ∧
    (shrinkColumns [32, 4, 12] (averageWidth 3 30)
      (([32, 4, 12] : List Int).sum - availableWidth 3 30)).getD 0 0 =
      max (averageWidth 3 30)
        ⌊shrinkFactorOf [32, 4, 12] (averageWidth 3 30)
            (([32, 4, 12] : List Int).sum - availableWidth 3 30) *
          ((([32, 4, 12] : List Int).getD 0 0 : Int) : ℚ)⌋ ∧
    (shrinkColumns [32, 4, 12] (averageWidth 3 30)
      (([32, 4, 12] : List Int).sum - availableWidth 3 30)).getD 2 0 =
      ([32, 4, 12] : List Int).getD 2 0 -
        ((([32, 4, 12] : List Int).sum - availableWidth 3 30) -
          ((bigColumnIndices [32, 4, 12] (averageWidth 3 30)).dropLast.map fun i =>
            ([32, 4, 12] : List Int).getD i 0 -
              max (averageWidth 3 30)
                ⌊shrinkFactorOf [32, 4, 12] (averageWidth 3 30)
                    (([32, 4, 12] : List Int).sum - availableWidth 3 30) *
                  ((([32, 4, 12] : List Int).getD i 0 : Int) : ℚ)⌋).sum) := by
  obtain ⟨h1, h2, h3, h4, h5⟩ := claim_C5 [32, 4, 12] 3 30 (by decide) (by decide)
    (by decide) (by decide)
  have h5i := h5 h1
  have hgl : (bigColumnIndices [32, 4, 12] (averageWidth 3 30)).getLast h1 = 2 := rfl
  rw [hgl] at h5i
  exact ⟨h1, h3 1 (by decide), h4 0 (by decide), h5i⟩

/-- C6 (amended): under the `even` strategy every column is first set to
`max(naturalWidths)`; when this does not overflow the budget and the
`fullWidth` growth does not run, the final widths are all equal to
`max(naturalWidths)`; when it overflows, the same shrink step as the
stretch strategy is applied against the budget (and is the final
answer).  (With `fullWidth` the grow step can break the equality.) -/
theorem claim_C6_amended (names : List Str) (content : List (List Str)) (o : TableOptions)
    (hsz : o.columnSizing = .even) :
    (jsMax (naturalWidths (columnNamesFull names o.indexColumn)
          (tableContentFull content o.indexColumn)) *
        (columnCountFull names o.indexColumn : Int) -
        availableWidth (columnCountFull names o.indexColumn) o.maxWidth ≤ 0 →
      sizedWidths (columnCountFull names o.indexColumn)
          (naturalWidths (columnNamesFull names o.indexColumn)
            (tableContentFull content o.indexColumn)) o =
        ((naturalWidths (columnNamesFull names o.indexColumn)
            (tableContentFull content o.indexColumn)).map fun _ =>
          jsMax (naturalWidths (columnNamesFull names o.indexColumn)
            (tableContentFull content o.indexColumn)),
         jsMax (naturalWidths (columnNamesFull names o.indexColumn)
            (tableContentFull content o.indexColumn)) *
          (columnCountFull names o.indexColumn : Int) -
          availableWidth (columnCountFull names o.indexColumn) o.maxWidth)) ∧
    (jsMax (naturalWidths (columnNamesFull names o.indexColumn)
          (tableContentFull content o.indexColumn)) *
        (columnCountFull names o.indexColumn : Int) -
        availableWidth (columnCountFull names o.indexColumn) o.maxWidth ≤ 0 →
      o.fullWidth = false →
      finalWidths names content o =
        (naturalWidths (columnNamesFull names o.indexColumn)
            (tableContentFull content o.indexColumn)).map fun _ =>
          jsMax (naturalWidths (columnNamesFull names o.indexColumn)
            (tableContentFull content o.indexColumn))) ∧
    (0 < jsMax (naturalWidths (columnNamesFull names o.indexColumn)
          (tableContentFull content o.indexColumn)) *
        (columnCountFull names o.indexColumn : Int) -
        availableWidth (columnCountFull names o.indexColumn) o.maxWidth →
      finalWidths names content o =
        shrinkColumns
          ((naturalWidths (columnNamesFull names o.indexColumn)
              (tableContentFull content o.indexColumn)).map fun _ =>
            jsMax (naturalWidths (columnNamesFull names o.indexColumn)
              (tableContentFull content o.indexColumn)))
          (averageWidth (columnCountFull names o.indexColumn) o.maxWidth)
          (jsMax (naturalWidths (columnNamesFull names o.indexColumn)
              (tableContentFull content o.indexColumn)) *
            (columnCountFull names o.indexColumn : Int) -
            availableWidth (columnCountFull names o.indexColumn) o.maxWidth)) := by
  have hsized_pos : 0 < jsMax (naturalWidths (columnNamesFull names o.indexColumn)
        (tableContentFull content o.indexColumn)) *
      (columnCountFull names o.indexColumn : Int) -
      availableWidth (columnCountFull names o.indexColumn) o.maxWidth →
      sizedWidths (columnCountFull names o.indexColumn)
        (naturalWidths (columnNamesFull names o.indexColumn)
          (tableContentFull content o.indexColumn)) o =
      (shrinkColumns
        ((naturalWidths (columnNamesFull names o.indexColumn)
            (tableContentFull content o.indexColumn)).map fun _ =>
          jsMax (naturalWidths (columnNamesFull names o.indexColumn)
            (tableContentFull content o.indexColumn)))
        (averageWidth (columnCountFull names o.indexColumn) o.maxWidth)
        (jsMax (naturalWidths (columnNamesFull names o.indexColumn)
            (tableContentFull content o.indexColumn)) *
          (columnCountFull names o.indexColumn : Int) -
          availableWidth (columnCountFull names o.indexColumn) o.maxWidth), 0) := by
    intro h
    simp only [sizedWidths, hsz]
    rw [if_pos h]
  refine ⟨?_, ?_, ?_⟩
  · intro h
    simp only [sizedWidths, hsz]
    rw [if_neg (not_lt.2 h)]
  · intro h hfw
    rw [finalWidths, solvedWidths]
    rw [if_neg (by rw [hfw]; simp)]
    have h1 : sizedWidths (columnCountFull names o.indexColumn)
        (naturalWidths (columnNamesFull names o.indexColumn)
          (tableContentFull content o.indexColumn)) o =
        ((naturalWidths (columnNamesFull names o.indexColumn)
            (tableContentFull content o.indexColumn)).map fun _ =>
          jsMax (naturalWidths (columnNamesFull names o.indexColumn)
            (tableContentFull content o.indexColumn)),
         jsMax (naturalWidths (columnNamesFull names o.indexColumn)
            (tableContentFull content o.indexColumn)) *
          (columnCountFull names o.indexColumn : Int) -
          availableWidth (columnCountFull names o.indexColumn) o.maxWidth) := by
      simp only [sizedWidths, hsz]
      rw [if_neg (not_lt.2 h)]
    rw [h1]
  · intro h
    rw [finalWidths, solvedWidths, hsized_pos h]
    rw [if_neg (by simp)]

-- Evaluating the core rational arithmetic in witnesses and
-- counterexamples needs the elaborator to unfold the `Rat` operations.
attribute [local semireducible] Rat.mul Rat.sub Rat.inv Rat.add

/-- Counterexample to C6 as stated: with `even` sizing, no overflow and
`fullWidth`, the final widths are `[4, 5]` — neither equal to each other
nor to `max(naturalWidths) = 3`, because the grow step redistributes the
slack unevenly. -/
theorem claim_C6_counterexample :
    optsC6.columnSizing = .even ∧
    jsMax (naturalWidths (columnNamesFull namesC2w optsC6.indexColumn)
        (tableContentFull [] optsC6.indexColumn)) *
      (columnCountFull namesC2w optsC6.indexColumn : Int) -
      availableWidth (columnCountFull namesC2w optsC6.indexColumn) optsC6.maxWidth ≤ 0 ∧
    (createTable namesC2w [] optsC6).isTable = true ∧
    ¬ ∀ w ∈ finalWidths namesC2w [] optsC6,
        w = jsMax (naturalWidths (columnNamesFull namesC2w optsC6.indexColumn)
          (tableContentFull [] optsC6.indexColumn)) := by
  decide

/-- Witness for the amended C6 at a concrete input (even sizing, no
overflow, `fullWidth` off: all widths equal the natural maximum). -/
theorem claim_C6_amended_witness :
    sizedWidths (columnCountFull namesC2w optsC6w.indexColumn)
        (naturalWidths (columnNamesFull namesC2w optsC6w.indexColumn)
          (tableContentFull [] optsC6w.indexColumn)) optsC6w =
      ((naturalWidths (columnNamesFull namesC2w optsC6w.indexColumn)
          (tableContentFull [] optsC6w.indexColumn)).map fun _ =>
        jsMax (naturalWidths (columnNamesFull namesC2w optsC6w.indexColumn)
          (tableContentFull [] optsC6w.indexColumn)),
       jsMax (naturalWidths (columnNamesFull namesC2w optsC6w.indexColumn)
          (tableContentFull [] optsC6w.indexColumn)) *
        (columnCountFull namesC2w optsC6w.indexColumn : Int) -
        availableWidth (columnCountFull namesC2w optsC6w.indexColumn) optsC6w.maxWidth) ∧
    finalWidths namesC2w [] optsC6w =
      (naturalWidths (columnNamesFull namesC2w optsC6w.indexColumn)
          (tableContentFull [] optsC6w.indexColumn)).map fun _ =>
        jsMax (naturalWidths (columnNamesFull namesC2w optsC6w.indexColumn)
          (tableContentFull [] optsC6w.indexColumn)) := by
  obtain ⟨h1, h2, -⟩ := claim_C6_amended namesC2w [] optsC6w (by decide)
  exact ⟨h1 (by decide), h2 (by decide) (by decide)⟩

/-- C7 (amended): the post-solve check that every final width is at
least 3 never fires for a feasible `maxWidth` PROVIDED every natural
column width is at least 3 (every column has a nonempty name or a
nonempty cell); the distinct internal error is then unreachable. -/
theorem claim_C7_amended (names : List Str) (content : List (List Str)) (o : TableOptions)
    (hfeas : 4 * (columnCountFull names o.indexColumn : Int) + 1 ≤ o.maxWidth)
    (hnat3 : ∀ w ∈ naturalWidths (columnNamesFull names o.indexColumn)
      (tableContentFull content o.indexColumn), 3 ≤ w) :
    createTable names content o ≠ .internalError := by
  have hcc0 : (0 : Int) ≤ (columnCountFull names o.indexColumn : Int) := by positivity
  have hA : 0 ≤ availableWidth (columnCountFull names o.indexColumn) o.maxWidth := by
    rw [availableWidth]
    linarith
  have hlen : (naturalWidths (columnNamesFull names o.indexColumn)
      (tableContentFull content o.indexColumn)).length =
      columnCountFull names o.indexColumn := by
    rw [naturalWidths_length, columnNamesFull_length]
  have hfeq : finalWidths names content o =
      solvedWidths (columnCountFull names o.indexColumn)
        (naturalWidths (columnNamesFull names o.indexColumn)
          (tableContentFull content o.indexColumn)) o := rfl
  have hall : ∀ w ∈ finalWidths names content o, 3 ≤ w := by
    rcases Nat.eq_zero_or_pos (columnCountFull names o.indexColumn) with h0 | hpos
    · intro w hw
      have hl := finalWidths_length names content o hA
      rw [h0] at hl
      rw [List.length_eq_zero.1 hl] at hw
      exact absurd hw (List.not_mem_nil w)
    · have hccZ : (0 : Int) < (columnCountFull names o.indexColumn : Int) := by
        exact_mod_cast hpos
      have hfe : 3 * (columnCountFull names o.indexColumn : Int) ≤
          availableWidth (columnCountFull names o.indexColumn) o.maxWidth := by
        rw [availableWidth]
        linarith
      have hidx : ∀ i, i < columnCountFull names o.indexColumn →
          3 ≤ (naturalWidths (columnNamesFull names o.indexColumn)
            (tableContentFull content o.indexColumn)).getD i 0 :=
        fun i hi => hnat3 _ (getD_mem _ i (by rw [hlen]; exact hi))
      have h3 := solvedWidths_ge3 (columnCountFull names o.indexColumn) _ o hlen hpos hfe hidx
      intro w hw
      rw [hfeq] at hw
      obtain ⟨i, hi, he⟩ := mem_getD_exists _ w hw 0
      have hlen2 := (solvedWidths_len_sum (columnCountFull names o.indexColumn) _ o hlen hA).1
      rw [hlen2] at hi
      rw [← he]
      exact h3 i hi
  rw [createTable_eq, if_neg (not_lt.2 hfeas)]
  rw [if_neg ?hany]
  case hany =>
    intro hany
    obtain ⟨w, hw, hlt⟩ := List.any_eq_true.1 hany
    have := hall w hw
    simp at hlt
    omega
  simp

/-- Counterexample to C7 as stated: with a single empty key name and no
items the natural width is 2, the feasibility check passes (80 ≥ 5) and
the post-check still throws the internal error. -/
theorem claim_C7_counterexample :
    4 * (columnCountFull [[]] optsBase.indexColumn : Int) + 1 ≤ optsBase.maxWidth ∧
    createTable [[]] [] optsBase = .internalError := by
  decide

/-- Witness for the amended C7 at a concrete input. -/
theorem claim_C7_amended_witness :
    createTable ["ab".data] [] optsBase ≠ .internalError :=
  claim_C7_amended ["ab".data] [] optsBase (by decide) (by decide)

/-- C8 (amended): with `maxWidth` exactly `4 * columnCount + 1` and
every natural column width at least 3, the call succeeds and every
final column width is exactly 3. -/
theorem claim_C8_amended (names : List Str) (content : List (List Str)) (o : TableOptions)
    (hmw : o.maxWidth = 4 * (columnCountFull names o.indexColumn : Int) + 1)
    (hnat3 : ∀ w ∈ naturalWidths (columnNamesFull names o.indexColumn)
      (tableContentFull content o.indexColumn), 3 ≤ w) :
    (createTable names content o).isTable = true ∧
    ∀ w ∈ finalWidths names content o, w = 3 := by
  have hcc0 : (0 : Int) ≤ (columnCountFull names o.indexColumn : Int) := by positivity
  have hA : 0 ≤ availableWidth (columnCountFull names o.indexColumn) o.maxWidth := by
    rw [availableWidth, hmw]
    linarith
  have hlen : (naturalWidths (columnNamesFull names o.indexColumn)
      (tableContentFull content o.indexColumn)).length =
      columnCountFull names o.indexColumn := by
    rw [naturalWidths_length, columnNamesFull_length]
  have hfeq : finalWidths names content o =
      solvedWidths (columnCountFull names o.indexColumn)
        (naturalWidths (columnNamesFull names o.indexColumn)
          (tableContentFull content o.indexColumn)) o := rfl
  have hall : ∀ w ∈ finalWidths names content o, w = 3 := by
    rcases Nat.eq_zero_or_pos (columnCountFull names o.indexColumn) with h0 | hpos
    · intro w hw
      have hl := finalWidths_length names content o hA
      rw [h0] at hl
      rw [List.length_eq_zero.1 hl] at hw
      exact absurd hw (List.not_mem_nil w)
    · have hidx : ∀ i, i < columnCountFull names o.indexColumn →
          3 ≤ (naturalWidths (columnNamesFull names o.indexColumn)
            (tableContentFull content o.indexColumn)).getD i 0 :=
        fun i hi => hnat3 _ (getD_mem _ i (by rw [hlen]; exact hi))
      have h3 := solvedWidths_all3 (columnCountFull names o.indexColumn) _ o hlen hpos hmw hidx
      intro w hw
      rw [hfeq] at hw
      obtain ⟨i, hi, he⟩ := mem_getD_exists _ w hw 0
      have hlen2 := (solvedWidths_len_sum (columnCountFull names o.indexColumn) _ o hlen hA).1
      rw [hlen2] at hi
      rw [← he]
      exact h3 i hi
  refine ⟨?_, hall⟩
  rw [createTable_eq, if_neg (by rw [hmw]; omega)]
  rw [if_neg ?hany]
  case hany =>
    intro hany
    obtain ⟨w, hw, hlt⟩ := List.any_eq_true.1 hany
    have := hall w hw
    simp at hlt
    omega
  rfl

/-- Counterexample to C8 as stated: one column with an empty name and no
items at the exact boundary width 5 does not succeed — the call throws
the internal post-check error (natural width 2 is left untouched). -/
theorem claim_C8_counterexample :
    optsC8.maxWidth = 4 * (columnCountFull [[]] optsC8.indexColumn : Int) + 1 ∧
    createTable [[]] [] optsC8 = .internalError := by
  decide

/-- Witness for the amended C8 at a concrete input. -/
theorem claim_C8_amended_witness :
    (createTable namesC2w [] optsC8w).isTable = true ∧
    (finalWidths namesC2w [] optsC8w).getD 0 0 = 3 := by
  obtain ⟨h1, h2⟩ := claim_C8_amended namesC2w [] optsC8w (by decide) (by decide)
  exact ⟨h1, h2 _ (by decide)⟩

/-- C9: for a row of rendered height `H`, vertical alignment `bottom`
prepends exactly `H - lineCount` empty lines to each cell, `middle`
prepends `floor((H - lineCount) / 2)`, `top` prepends none; the renderer
then emits exactly `H` physical lines for the row, line `j` taking entry
`j` of every padded cell with the empty string substituted past the
end. -/
theorem claim_C9 (row : List Str) (widths : List Int) (ha : HorizontalAlignment)
    (va : VerticalAlignment) (i j : Nat) (hi : i < widths.length)
    (hj : j < rowHeightOf (rowCells row widths)) :
    (alignCells .bottom (rowHeightOf (rowCells row widths)) (rowCells row widths)).getD i [] =
      List.replicate (rowHeightOf (rowCells row widths) -
        ((rowCells row widths).getD i []).length) ([] : Str) ++
        (rowCells row widths).getD i [] ∧
    (alignCells .middle (rowHeightOf (rowCells row widths)) (rowCells row widths)).getD i [] =
      List.replicate ((rowHeightOf (rowCells row widths) -
        ((rowCells row widths).getD i []).length) / 2) ([] : Str) ++
        (rowCells row widths).getD i [] ∧
    alignCells .top (rowHeightOf (rowCells row widths)) (rowCells row widths) =
      rowCells row widths ∧
    (rowLines row widths ha va).length = rowHeightOf (rowCells row widths) ∧
    (cellRowsOf (rowHeightOf (rowCells row widths))
        (alignCells va (rowHeightOf (rowCells row widths)) (rowCells row widths))).getD j [] =
      (alignCells va (rowHeightOf (rowCells row widths)) (rowCells row widths)).map
        fun c => c.getD j ([] : Str) := by
  have hi2 : i < (rowCells row widths).length := by rw [rowCells_length]; exact hi
  refine ⟨?_, ?_, ?_, rowLines_length row widths ha va, cellRowsOf_getD _ _ j hj⟩
  · rw [alignCells_getD _ _ _ i hi2]
    rfl
  · rw [alignCells_getD _ _ _ i hi2]
    rfl
  · rw [alignCells, if_pos rfl]

/-- Witness for C9 at a concrete two-column row of height 2. -/
theorem claim_C9_witness :
    (alignCells .bottom (rowHeightOf (rowCells rowC9 widthsC9))
        (rowCells rowC9 widthsC9)).getD 1 [] =
      List.replicate (rowHeightOf (rowCells rowC9 widthsC9) -
        ((rowCells rowC9 widthsC9).getD 1 []).length) ([] : Str) ++
        (rowCells rowC9 widthsC9).getD 1 [] ∧
    (alignCells .middle (rowHeightOf (rowCells rowC9 widthsC9))
        (rowCells rowC9 widthsC9)).getD 1 [] =
      List.replicate ((rowHeightOf (rowCells rowC9 widthsC9) -
        ((rowCells rowC9 widthsC9).getD 1 []).length) / 2) ([] : Str) ++
        (rowCells rowC9 widthsC9).getD 1 [] ∧
    alignCells .top (rowHeightOf (rowCells rowC9 widthsC9)) (rowCells rowC9 widthsC9) =
      rowCells rowC9 widthsC9 ∧
    (rowLines rowC9 widthsC9 .left .bottom).length = rowHeightOf (rowCells rowC9 widthsC9) ∧
    (cellRowsOf (rowHeightOf (rowCells rowC9 widthsC9))
        (alignCells .bottom (rowHeightOf (rowCells rowC9 widthsC9))
          (rowCells rowC9 widthsC9))).getD 0 [] =
      (alignCells .bottom (rowHeightOf (rowCells rowC9 widthsC9))
        (rowCells rowC9 widthsC9)).map fun c => c.getD 0 ([] : Str) :=
  claim_C9 rowC9 widthsC9 .left .bottom 1 0 (by decide) (by decide)

theorem allocObj_fst_next (h : Heap) (o : HeapObj) : ((allocObj h o).1).next = h.next + 1 := rfl

theorem allocObj_snd (h : Heap) (o : HeapObj) : (allocObj h o).2 = h.next := rfl

theorem allocObj_mem_lt (h : Heap) (o : HeapObj) (r : Nat) (hr : r < h.next) :
    ((allocObj h o).1).mem r = h.mem r := by
  rw [allocObj]
  simp only
  rw [if_neg (by omega)]

theorem unshiftArr_mem_ne (h : Heap) (r0 r : Nat) (v : JsVal) (hne : r ≠ r0) :
    (unshiftArr h r0 v).mem r = h.mem r := by
  rw [unshiftArr]
  simp only
  rw [if_neg hne]

/-- The index-cell `unshift` loop only touches the listed row refs. -/
theorem unshift_foldl_mem (L : List (Nat × Nat)) (hh : Heap) (r : Nat)
    (hne : ∀ p ∈ L, p.2 ≠ r) :
    (L.foldl (fun h2 p => unshiftArr h2 p.2 (.str (natStr p.1))) hh).mem r = hh.mem r := by
  induction L generalizing hh with
  | nil => rfl
  | cons p ps ih =>
    rw [List.foldl_cons, ih _ fun q hq => hne q (List.mem_cons_of_mem p hq),
      unshiftArr_mem_ne _ _ _ _ (fun he => hne p (List.mem_cons_self p ps) he.symm)]

/-- Invariant of the row-building loop: the allocation counter only
grows, every pre-existing heap cell survives unchanged, and every
collected row ref is fresh. -/
theorem preludeStep_foldlM_inv (F : Option JsVal → Str) (keyStrs : List Str) (N : Nat)
    (items : List JsVal) :
    ∀ st0 st1 : Heap × List Nat,
      items.foldlM (preludeStep F keyStrs) st0 = some st1 →
      N ≤ st0.1.next →
      N ≤ st1.1.next ∧ (∀ r, r < N → st1.1.mem r = st0.1.mem r) ∧
        (∀ x ∈ st1.2, x ∈ st0.2 ∨ N ≤ x) := by
  induction items with
  | nil =>
    intro st0 st1 hrun hN
    rw [List.foldlM_nil] at hrun
    cases hrun
    exact ⟨hN, fun r _ => rfl, fun x hx => Or.inl hx⟩
  | cons v vs ih =>
    intro st0 st1 hrun hN
    rw [List.foldlM_cons] at hrun
    obtain ⟨st0m, hstep, hrest⟩ := Option.bind_eq_some.1 hrun
    have hfacts : st0.1.next ≤ st0m.1.next ∧
        (∀ r, r < st0.1.next → st0m.1.mem r = st0.1.mem r) ∧
        (∀ x ∈ st0m.2, x ∈ st0.2 ∨ st0.1.next ≤ x) := by
      cases v with
      | str s => exact absurd hstep (by rw [preludeStep]; exact fun h => by cases h)
      | ref rr =>
        rw [preludeStep] at hstep
        simp only at hstep
        split at hstep
        · cases hstep
          refine ⟨by rw [allocObj_fst_next]; omega,
            fun r hr => allocObj_mem_lt _ _ r hr, fun x hx => ?_⟩
          rcases List.mem_append.1 hx with h1 | h2
          · exact Or.inl h1
          · rw [List.mem_singleton.1 h2, allocObj_snd]
            exact Or.inr le_rfl
        · cases hstep
    obtain ⟨hn1, hm1, hx1⟩ := hfacts
    obtain ⟨hn2, hm2, hx2⟩ := ih st0m st1 hrest (le_trans hN hn1)
    refine ⟨hn2, fun r hr => ?_, fun x hx => ?_⟩
    · rw [hm2 r hr, hm1 r (lt_of_lt_of_le hr hN)]
    · rcases hx2 x hx with h1 | h2
      · rcases hx1 x h1 with h3 | h4
        · exact Or.inl h3
        · exact Or.inr (le_trans hN h4)
      · exact Or.inr h2

theorem getD_mem_of_lt {α : Type} (l : List α) (i : Nat) (d : α) (h : i < l.length) :
    l.getD i d ∈ l := by
  rw [List.getD_eq_getElem?_getD, List.getElem?_eq_getElem h]
  exact List.getElem_mem h

/-- C10: `createTable` never mutates its arguments.  The prelude is the
only part of the function that touches the caller heap; whenever it
completes, every heap cell allocated before the call — the keys array,
the items array and every item record among them — holds exactly its
original object.  The `(index)` header and the row-index cells are
unshifted only onto the freshly allocated internal copies. -/
theorem claim_C10 (F : Option JsVal → Str) (h0 : Heap) (itemsRef keysRef : Nat)
    (ic : Bool) (hres : Heap) (nr cr : Nat)
    (hrun : tablePrelude F h0 itemsRef keysRef ic = some (hres, nr, cr)) :
    ∀ r, r < h0.next → hres.mem r = h0.mem r := by
  intro r hr
  rw [tablePrelude] at hrun
  split at hrun
  case _ keyVals itemVals hK hI =>
    simp only [Option.bind_eq_some] at hrun
    obtain ⟨keyStrs, hks, hrun2⟩ := hrun
    obtain ⟨rowsState, hfold, hrun3⟩ := hrun2
    have hN0 : h0.next ≤
        ((allocObj h0 (.arr (keyStrs.map JsVal.str))).1, ([] : List Nat)).1.next := by
      rw [allocObj_fst_next]
      omega
    obtain ⟨hn, hm, hx⟩ :=
      preludeStep_foldlM_inv F keyStrs h0.next itemVals _ rowsState hfold hN0
    have hmem0 : rowsState.1.mem r = h0.mem r := by
      rw [hm r hr, allocObj_mem_lt _ _ r hr]
    cases ic with
    | false =>
      rw [if_neg (by simp)] at hrun3
      cases hrun3
      rw [allocObj_mem_lt _ _ r (lt_of_lt_of_le hr hn), hmem0]
    | true =>
      rw [if_pos rfl] at hrun3
      cases hrun3
      rw [unshift_foldl_mem]
      · rw [unshiftArr_mem_ne _ _ _ _ (by rw [allocObj_snd]; omega),
          allocObj_mem_lt _ _ r (lt_of_lt_of_le hr hn), hmem0]
      · intro p hp
        have hf := mem_enum_facts rowsState.2 p hp 0
        have hpm : p.2 ∈ rowsState.2 := by
          rw [hf.2]
          exact getD_mem_of_lt _ _ _ hf.1
        rcases hx p.2 hpm with h1 | h2
        · exact absurd h1 (List.not_mem_nil p.2)
        · omega
  case _ =>
    cases hrun

/-- Witness for C10: the prelude run on the concrete caller heap `h0w`
with `indexColumn` enabled leaves the keys array (ref 0), the items
array (ref 1) and the item record (ref 2) untouched. -/
theorem claim_C10_witness :
    (tablePrelude F0 h0w 1 0 true).elim False
      (fun res => res.1.mem 0 = h0w.mem 0 ∧ res.1.mem 1 = h0w.mem 1 ∧
        res.1.mem 2 = h0w.mem 2) := by
  cases hrun : tablePrelude F0 h0w 1 0 true with
  | none =>
    have hs : (tablePrelude F0 h0w 1 0 true).isSome = true := rfl
    rw [hrun] at hs
    exact absurd hs (by decide)
  | some res =>
    obtain ⟨hx, nr, cr⟩ := res
    have hp := claim_C10 F0 h0w 1 0 true hx nr cr hrun
    exact ⟨hp 0 (by decide), hp 1 (by decide), hp 2 (by decide)⟩

end NiceTable
